import Mathlib

/-!
Shallow embedding of the concurrent prioritized replay buffer implemented in
`src/thirdparty/github/fairinternal/postman/buffer/include/buffer/prioritized_replay.h`
(classes `buffer::ConcurrentQueue` and `buffer::PrioritizedReplay`).

Modelling conventions:
* 32-bit / 64-bit floating point values (`float` weights, `double sum_`) are
  idealized as rationals `ℚ`; the literal `0.2f` becomes `1/5` and `1.25`
  becomes `5/4` (both are the intended real values; `1.25` is moreover exact
  in binary floating point, so `int(1.25 * capacity)` truncates to
  `⌊5·capacity/4⌋` for every capacity below `2^51`).
* `torch::pow(x, e)` (elementwise power with a float exponent) is an external
  numeric-library operation (the source only requires an elementwise-power
  primitive from its tensor library), so it is passed in as an explicit
  function parameter `fpow : ℚ → ℚ → ℚ` (`fpow base exponent`).
* Rank-1 float tensors become `List ℚ`; the opaque payload `DataType` becomes
  a type parameter `α` with `[Inhabited α]` (the source default-constructs a
  `DataType` in `get_new_content`).
* The pseudo-random draws of `std::uniform_real_distribution` are supplied as
  an input list `us`; theorems hypothesize the range `0 ≤ u` (< segment).
* C++ `assert(...)` failures (process aborts) are modelled by `Option`:
  a function returns `none` exactly when the corresponding execution aborts.
* Sequential (interleaving) semantics: each store operation is a state
  transformation; the two-phase `block_append` is split into a `reserve`
  step and a `commit` step in the reachability relation so that states with
  `safe_size < size` (mid-append) are reachable, as they are in the source.
  The phase-2 bulk copy is folded into the commit step (no claim concerns
  racing writes inside the reserved region).
-/

set_option maxRecDepth 4000

namespace PostmanBuffer

/-- State of `buffer::ConcurrentQueue`: ring geometry (`head_`, `tail_`,
    `size_`, `safe_tail_`, `safe_size_`), the running weight sum `sum_`,
    the per-slot `evicted_` flags and the `elements_` / `weights_` arrays,
    all of physical length `capacity`. -/
structure Queue (α : Type) where
  capacity : ℕ
  head : ℕ
  tail : ℕ
  size : ℕ
  safe_tail : ℕ
  safe_size : ℕ
  sum : ℚ
  evicted : List Bool
  elements : List α
  weights : List ℚ
deriving DecidableEq

/-- The initial queue built by the `ConcurrentQueue(int capacity)`
    constructor: empty geometry, zero weights, no evicted flags. -/
def initQueue (α : Type) [Inhabited α] (capacity : ℕ) : Queue α :=
  ⟨capacity, 0, 0, 0, 0, 0, 0,
   List.replicate capacity false,
   List.replicate capacity default,
   List.replicate capacity 0⟩

/-- The assertion body of `ConcurrentQueue::check_size(head, tail, size)`
    (lines 150–166): `true` iff none of its `assert`s fires. -/
def check_size (capacity head tail size : ℕ) : Bool :=
  if size = 0 then tail == head
  else if tail > head then tail - head == size
  else tail + capacity - head == size

/-- `ConcurrentQueue::get_element_and_mark(idx)`: read the element at logical
    offset `idx` from `head` and clear its evicted flag.  Returns the element
    together with the updated queue (the flag write is the only mutation). -/
def get_element_and_mark {α : Type} [Inhabited α] (q : Queue α) (idx : ℕ) :
    α × Queue α :=
  let id := (q.head + idx) % q.capacity
  (q.elements.getD id default, { q with evicted := q.evicted.set id false })

/-- `ConcurrentQueue::get_weight(idx, &id)`: read the weight at logical
    offset `idx` from `head`, returning the weight and the physical index. -/
def get_weight {α : Type} (q : Queue α) (idx : ℕ) : ℚ × ℕ :=
  let id := (q.head + idx) % q.capacity
  (q.weights.getD id 0, id)

/-- The head-scanning loop of `ConcurrentQueue::block_pop` (lines 96–102):
    starting at `head`, accumulate the negated weights of `n` slots and mark
    each evicted, advancing `head` modulo `capacity`.
    Returns `(diff, evicted', head')`. -/
def popLoop (capacity : ℕ) (weights : List ℚ) :
    List Bool → ℕ → ℕ → ℚ × List Bool × ℕ
  | evicted, head, 0 => (0, evicted, head)
  | evicted, head, n + 1 =>
      let d := weights.getD head 0
      let out := popLoop capacity weights (evicted.set head true)
        ((head + 1) % capacity) n
      (out.1 - d, out.2)

/-- `ConcurrentQueue::block_pop(block_size)`: mark `n` slots from the head
    evicted, subtract their weights from `sum_`, advance `head_`, decrement
    `size_` and `safe_size_`.  Returns `none` when the execution would abort:
    `assert(safe_size_ >= 0)` requires `n ≤ safe_size` (and `n ≤ size`, which
    the subsequent `check_size` assertion enforces on the int state), and
    `check_size(head_, safe_tail_, safe_size_)` must pass. -/
def block_pop {α : Type} (q : Queue α) (n : ℕ) : Option (Queue α) :=
  let out := popLoop q.capacity q.weights q.evicted q.head n
  if n ≤ q.safe_size ∧ n ≤ q.size ∧
      check_size q.capacity out.2.2 q.safe_tail (q.safe_size - n) then
    some { q with sum := q.sum + out.1, head := out.2.2, evicted := out.2.1,
                  safe_size := q.safe_size - n, size := q.size - n }
  else none

/-- The per-id loop of `ConcurrentQueue::update` (lines 119–126): walk the
    `(id, weight)` pairs, skip ids whose evicted flag is set, otherwise
    accumulate `new − old` into the diff and write the new weight in place.
    Returns the updated weight array and the accumulated diff. -/
def updateLoop (evicted : List Bool) :
    List ℚ → List (ℕ × ℚ) → List ℚ × ℚ
  | weights, [] => (weights, 0)
  | weights, (id, w) :: rest =>
      if evicted.getD id false then updateLoop evicted weights rest
      else
        let old := weights.getD id 0
        let out := updateLoop evicted (weights.set id w) rest
        (out.1, (w - old) + out.2)

/-- `ConcurrentQueue::update(ids, weights)`: apply the update loop and then
    commit the accumulated diff to `sum_` under the lock. -/
def update {α : Type} (q : Queue α) (ids : List ℕ) (ws : List ℚ) : Queue α :=
  let out := updateLoop q.evicted q.weights (ids.zip ws)
  { q with weights := out.1, sum := q.sum + out.2 }

/-- Phase 1 of `ConcurrentQueue::block_append` (lines 57–65): after waiting
    for `size_ + block_size ≤ capacity`, reserve by advancing `tail_` and
    `size_` (the reservation start is the old `tail_`). -/
def reserveQ {α : Type} (q : Queue α) (n : ℕ) : Queue α :=
  { q with tail := (q.tail + n) % q.capacity, size := q.size + n }

/-- The phase-2 copy loop of `ConcurrentQueue::block_append` (lines 69–77):
    write elements and weights into slots `(start + i) % capacity`. -/
def writeBlock {α : Type} (capacity : ℕ) :
    List α → List ℚ → ℕ → List α → List ℚ → List α × List ℚ
  | elements, weights, _, [], _ => (elements, weights)
  | elements, weights, _, _, [] => (elements, weights)
  | elements, weights, start, e :: es, w :: ws =>
      writeBlock capacity (elements.set (start % capacity) e)
        (weights.set (start % capacity) w) (start + 1) es ws

/-- Phase 3 of `ConcurrentQueue::block_append` (lines 79–88), fused with the
    phase-2 copy: once `safe_tail_` equals the reservation start, write the
    block, advance `safe_tail_` and `safe_size_`, and add the block's local
    weight sum to `sum_`. -/
def commitQ {α : Type} (q : Queue α) (start : ℕ) (es : List α) (ws : List ℚ) :
    Queue α :=
  let out := writeBlock q.capacity q.elements q.weights start es ws
  { q with elements := out.1, weights := out.2,
           safe_tail := (start + es.length) % q.capacity,
           safe_size := q.safe_size + es.length,
           sum := q.sum + ws.sum }

/-- `ConcurrentQueue::block_append(block, weights)` as one atomic state
    transformation (the quiescent, no-interleaving execution: reserve, copy,
    commit back-to-back).  `none` models blocking forever on a full buffer
    or the `assert(weight_acc.size(0) == block_size)` abort. -/
def block_append {α : Type} (q : Queue α) (es : List α) (ws : List ℚ) :
    Option (Queue α) :=
  if ws.length = es.length ∧ q.size + es.length ≤ q.capacity then
    some (commitQ (reserveQ q es.length) q.tail es ws)
  else none

/-- `ConcurrentQueue::safe_size(float* sum)`: the committed size, optionally
    with the running sum (here always returned as a pair). -/
def safe_size {α : Type} (q : Queue α) : ℕ × ℚ :=
  (q.safe_size, q.sum)

/-- Maximum of a weight vector (`weights.max()` on a rank-1 tensor);
    `0` on the empty vector (the source never takes it on an empty one). -/
def listMax : List ℚ → ℚ
  | [] => 0
  | [x] => x
  | x :: y :: xs => max x (listMax (y :: xs))

/-- The importance-weight pipeline at the end of `PrioritizedReplay::sample_`
    (lines 373–375), which is also the formula of the specification:
    `w ← w / sum`, then `w ← (n · w) ^ (−β)` (the power through the external
    `fpow`), then normalize by the maximum. -/
def isWeights (fpow : ℚ → ℚ → ℚ) (beta : ℚ) (n : ℕ) (sum : ℚ)
    (ws : List ℚ) : List ℚ :=
  let w1 := ws.map (fun w => w / sum)
  let w2 := w1.map (fun w => fpow ((n : ℚ) * w) (-beta))
  w2.map (fun w => w / listMax w2)

/-- Prefix sum of the logical weights of the safe region: the sum of
    `weights_[(head_ + k) % capacity]` over `k < m`.  This is the value
    `acc_sum` holds in `PrioritizedReplay::sample_` once the scan cursor
    has consumed `m` slots. -/
def prefixW {α : Type} (q : Queue α) (m : ℕ) : ℚ :=
  ((List.range m).map (fun k => q.weights.getD ((q.head + k) % q.capacity) 0)).sum

/-- The scan variables of `PrioritizedReplay::sample_` that persist across
    the batch loop (lines 332–335): `acc_sum`, `next_idx`, and the carried
    last-read weight `w` and physical index `id`. -/
structure ScanState where
  accSum : ℚ
  nextIdx : ℕ
  w : ℚ
  id : ℕ
deriving DecidableEq

/-- The inner `while (next_idx <= size)` loop of `PrioritizedReplay::sample_`
    (lines 340–360) for one random draw `rand`: either select the slot that
    triggered the crossing `acc_sum ≥ rand` (with `acc_sum > 0`), returning
    the copied element, the queue with that slot's evicted flag cleared
    (`get_element_and_mark`), and the scan state at selection time; or
    consume the weight at the cursor and advance.  `none` models the two
    aborts: `assert(next_idx >= 1)` and the `next_idx == size` exhaustion
    dump (line 354). -/
def scanGo {α : Type} [Inhabited α] (q : Queue α) (size : ℕ) (rand : ℚ) :
    ℕ → ScanState → Option (α × Queue α × ScanState)
  | 0, _ => none
  | fuel + 1, st =>
      if st.nextIdx ≤ size then
        if 0 < st.accSum ∧ rand ≤ st.accSum then
          if 1 ≤ st.nextIdx then
            let out := get_element_and_mark q (st.nextIdx - 1)
            some (out.1, out.2, st)
          else none
        else if st.nextIdx = size then none
        else
          let out := get_weight q st.nextIdx
          scanGo q size rand fuel
            ⟨st.accSum + out.1, st.nextIdx + 1, out.1, out.2⟩
      else none

/-- Entry point of the inner loop.  The fuel `size + 1 − next_idx` is the
    exact number of remaining iterations the `while (next_idx <= size)`
    condition admits (the loop body always either returns, aborts, or
    increments `next_idx`), so `scanGo` with this fuel is the loop itself;
    fuel `0` corresponds to the loop condition being false at entry, after
    which the source falls through with one sample missing and dies on
    `assert(samples.size() == batchsize)`. -/
def scanOne {α : Type} [Inhabited α] (q : Queue α) (size : ℕ) (rand : ℚ)
    (st : ScanState) : Option (α × Queue α × ScanState) :=
  scanGo q size rand (size + 1 - st.nextIdx) st

/-- The outer `for (i = 0; i < batchsize; i++)` loop of
    `PrioritizedReplay::sample_` (lines 336–361): for the `i`-th draw `u`
    the random value is `u + i * segment` clamped above by `sum − 0.2`
    (line 338, with `0.2f` idealized as `1/5`); each draw selects one slot
    via `scanOne`.  Returns the selected elements, their weights `w`, their
    physical ids, the queue with the cleared evicted flags, and the final
    scan state. -/
def scanLoop {α : Type} [Inhabited α] (size : ℕ) (sum segment : ℚ) :
    Queue α → List ℚ → ℕ → ScanState →
    Option (List α × List ℚ × List ℕ × Queue α × ScanState)
  | q, [], _, st => some ([], [], [], q, st)
  | q, u :: us, i, st =>
      let rand := min (sum - 1/5) (u + i * segment)
      match scanOne q size rand st with
      | none => none
      | some (e, q', st') =>
          match scanLoop size sum segment q' us (i + 1) st' with
          | none => none
          | some (es, ws, ids, q'', st'') =>
              some (e :: es, st'.w :: ws, st'.id :: ids, q'', st'')

/-- State of `buffer::PrioritizedReplay`: the exponents `alpha_` and `beta_`,
    the nominal `capacity_`, the wrapped store, the `num_add_` counter, the
    pending `sampled_ids_` of the sample/update handshake, and the
    `last_query_` cursor of `get_new_content`.  The prefetch FIFO and the
    RNG are not part of the sequential model: random draws are inputs and
    the claims concern the synchronous (`prefetch_ == 0`) path. -/
structure Replay (α : Type) where
  alpha : ℚ
  beta : ℚ
  capacity : ℕ
  storage : Queue α
  num_add : ℕ
  sampled_ids : List ℕ
  last_query : ℕ
deriving DecidableEq

/-- The physical storage capacity chosen by the `PrioritizedReplay`
    constructor (line 194): `int(1.25 * capacity)`, i.e. `⌊5·c/4⌋`
    (the double product `1.25 * c` is exact and `int(...)` truncates). -/
def storageCapacity (c : ℕ) : ℕ :=
  5 * c / 4

/-- The `PrioritizedReplay(capacity, seed, alpha, beta, prefetch)`
    constructor: the store is sized `storageCapacity capacity`. -/
def mkReplay (α : Type) [Inhabited α] (capacity : ℕ) (alpha beta : ℚ) :
    Replay α :=
  ⟨alpha, beta, capacity, initQueue α (storageCapacity capacity), 0, [], 0⟩

/-- `PrioritizedReplay::add(sample, priority)`: check the priority tensor is
    rank 1 of matching length (rank 1 is inherent in the list model), raise
    each priority to `alpha_` via the external power `fpow`, append, and add
    the batch size to `num_add_`. -/
def add {α : Type} [Inhabited α] (fpow : ℚ → ℚ → ℚ) (s : Replay α)
    (es : List α) (priority : List ℚ) : Option (Replay α) :=
  if priority.length = es.length then
    match block_append s.storage es (priority.map (fun p => fpow p s.alpha)) with
    | none => none
    | some q => some { s with storage := q, num_add := s.num_add + es.length }
  else none

/-- `PrioritizedReplay::sample_(batchsize, device)` (lines 317–381), the
    synchronous sampling body: snapshot `(size, sum)` from
    `storage_.safe_size(&sum)`, scan with `segment = sum / batchsize`, then
    re-read the reserved size and pop down to `capacity_` if it exceeds it,
    and finally compute the importance weights
    (`w / sum`, then `fpow (size * w) (−beta)`, then divide by the max).
    The draw list `us` stands for the `batchsize` PRNG draws.  Device
    transfer (`device != "cpu"`) does not change the values and is omitted. -/
def samplePriv {α : Type} [Inhabited α] (fpow : ℚ → ℚ → ℚ) (s : Replay α)
    (batchsize : ℕ) (us : List ℚ) :
    Option (List α × List ℚ × List ℕ × Replay α) :=
  if us.length = batchsize then
    let snap := safe_size s.storage
    let segment := snap.2 / (batchsize : ℚ)
    match scanLoop snap.1 snap.2 segment s.storage us 0 ⟨0, 0, 0, 0⟩ with
    | none => none
    | some (es, ws, ids, q', _) =>
        let size2 := q'.size
        match (if s.capacity < size2 then block_pop q' (size2 - s.capacity)
               else some q') with
        | none => none
        | some q'' =>
            some (es, isWeights fpow s.beta size2 snap.2 ws, ids,
              { s with storage := q'' })
  else none

/-- `PrioritizedReplay::sample(batchsize, device)` (lines 253–286) on the
    synchronous (`prefetch_ == 0`) path: abort (`assert(false)`, line 258)
    when `sampled_ids_` is non-empty, otherwise run `sample_` and stash the
    returned ids in `sampled_ids_`. -/
def sample {α : Type} [Inhabited α] (fpow : ℚ → ℚ → ℚ) (s : Replay α)
    (batchsize : ℕ) (us : List ℚ) :
    Option ((List α × List ℚ) × Replay α) :=
  if s.sampled_ids ≠ [] then none
  else
    match samplePriv fpow s batchsize us with
    | none => none
    | some (es, ws, ids, s') =>
        some ((es, ws), { s' with sampled_ids := ids })

/-- `PrioritizedReplay::update_priority(priority)` (lines 288–298): the
    priority tensor must be rank 1 (inherent here) with length equal to
    `sampled_ids_` (`assert`, line 290), is re-exponentiated by `alpha_`
    and forwarded to `ConcurrentQueue::update` for exactly the pending ids,
    after which `sampled_ids_` is cleared. -/
def update_priority {α : Type} (fpow : ℚ → ℚ → ℚ) (s : Replay α)
    (priority : List ℚ) : Option (Replay α) :=
  if priority.length = s.sampled_ids.length then
    some { s with
            storage := update s.storage s.sampled_ids
              (priority.map (fun p => fpow p s.alpha)),
            sampled_ids := [] }
  else none

/-- `PrioritizedReplay::keep_priority()`: discard the pending ids without
    touching the store. -/
def keep_priority {α : Type} (s : Replay α) : Replay α :=
  { s with sampled_ids := [] }

/-- `PrioritizedReplay::size()` (lines 304–306): returns
    `storage_.safe_size(nullptr)`, the committed size of the store. -/
def replaySize {α : Type} (s : Replay α) : ℕ :=
  (safe_size s.storage).1

/-- The reading loop of `PrioritizedReplay::get_new_content`
    (lines 221–228): for `cur` from `0` to `n − 1`, read the element at
    logical offset `cur` (clearing its evicted flag) and overwrite entry
    `cur` of the weight vector (initialized to ones, line 214) with the
    stored weight `get_weight(cur)`.  Returns elements, weight vector and
    the marked queue. -/
def newContentLoop {α : Type} [Inhabited α] :
    Queue α → List ℚ → ℕ → ℕ → List α × List ℚ × Queue α
  | q, ws, _, 0 => ([], ws, q)
  | q, ws, cur, n + 1 =>
      let out := get_element_and_mark q cur
      let ws' := ws.set cur (get_weight q cur).1
      let rest := newContentLoop out.2 ws' (cur + 1) n
      (out.1 :: rest.1, rest.2.1, rest.2.2)

/-- `PrioritizedReplay::get_new_content()` (lines 211–233): drain the
    `num_add_ − last_query_` slots at the head.  When that count is zero,
    return a default batch with the empty weight vector; otherwise read the
    slots (the `torch::ones` vector is overwritten entry by entry with the
    stored weights), advance `last_query_`, and `block_pop` the slots.
    `none` models the abort inside `block_pop`. -/
def get_new_content {α : Type} [Inhabited α] (s : Replay α) :
    Option ((ℕ × List α × List ℚ) × Replay α) :=
  let n := s.num_add - s.last_query
  if n = 0 then some ((0, [], List.replicate n 1), s)
  else
    let out := newContentLoop s.storage (List.replicate n 1) 0 n
    match block_pop out.2.2 n with
    | none => none
    | some q' =>
        some ((n, out.1, out.2.1),
          { s with storage := q', last_query := s.last_query + n })

/-- A reservation made by phase 1 of `block_append` that has not yet been
    committed by phase 3: its start slot (the `tail_` at reservation time),
    and the block's elements and weights. -/
structure Pending (α : Type) where
  start : ℕ
  es : List α
  ws : List ℚ
deriving DecidableEq

/-- One transition of the ring store under sequential interleaving
    semantics.  A configuration pairs the queue with the list of pending
    (reserved, uncommitted) appends in reservation order; the tail-ordered
    condition variable (line 81) means only the oldest pending block can
    commit. -/
inductive QStep {α : Type} [Inhabited α] :
    Queue α × List (Pending α) → Queue α × List (Pending α) → Prop
  | reserve (q : Queue α) (ps : List (Pending α)) (es : List α) (ws : List ℚ)
      (hroom : q.size + es.length ≤ q.capacity)
      (hlen : ws.length = es.length) :
      QStep (q, ps) (reserveQ q es.length, ps ++ [⟨q.tail, es, ws⟩])
  | commit (q : Queue α) (p : Pending α) (ps : List (Pending α))
      (hord : p.start = q.safe_tail) :
      QStep (q, p :: ps) (commitQ q p.start p.es p.ws, ps)
  | pop (q q' : Queue α) (ps : List (Pending α)) (n : ℕ)
      (h : block_pop q n = some q') :
      QStep (q, ps) (q', ps)
  | upd (q : Queue α) (ps : List (Pending α)) (ids : List ℕ) (ws : List ℚ)
      (hlen : ids.length = ws.length) :
      QStep (q, ps) (update q ids ws, ps)
  | mark (q : Queue α) (ps : List (Pending α)) (idx : ℕ) :
      QStep (q, ps) ((get_element_and_mark q idx).2, ps)

/-- Reachability of a store configuration from the freshly constructed
    queue with no pending appends. -/
def QReach {α : Type} [Inhabited α] (capacity : ℕ)
    (c : Queue α × List (Pending α)) : Prop :=
  Relation.ReflTransGen QStep (initQueue α capacity, []) c

/-- The chain condition on pending reservations: their start slots are
    consecutive modulo capacity beginning at `safe_tail`, and the final end
    equals `tail`. -/
def pendingChain {α : Type} (capacity : ℕ) : ℕ → List (Pending α) → ℕ → Prop
  | s, [], t => t = s
  | s, p :: ps, t =>
      p.start = s ∧ p.ws.length = p.es.length ∧
      pendingChain capacity ((s + p.es.length) % capacity) ps t

/-- Total number of reserved-but-uncommitted slots. -/
def pendingTotal {α : Type} (ps : List (Pending α)) : ℕ :=
  (ps.map (fun p => p.es.length)).sum

/-- The store invariant carried through the reachability induction:
    positive capacity, in-range `head`, `size` bounded by the physical
    capacity, the committed size plus the pending reservations equal to the
    reserved size, both tails determined by `head` and the sizes modulo
    capacity, the pending chain, and the array lengths. -/
def QInv {α : Type} (q : Queue α) (ps : List (Pending α)) : Prop :=
  0 < q.capacity ∧
  q.head < q.capacity ∧
  q.size ≤ q.capacity ∧
  q.safe_size + pendingTotal ps = q.size ∧
  q.tail = (q.head + q.size) % q.capacity ∧
  q.safe_tail = (q.head + q.safe_size) % q.capacity ∧
  pendingChain q.capacity q.safe_tail ps q.tail ∧
  q.evicted.length = q.capacity ∧
  q.elements.length = q.capacity ∧
  q.weights.length = q.capacity

/-! Helper lemmas about the loop bodies. -/

theorem popLoop_head_eq {cap : ℕ} (ws : List ℚ) (hcap : 0 < cap) :
    ∀ (n : ℕ) (ev : List Bool) (h : ℕ), h < cap →
      (popLoop cap ws ev h n).2.2 = (h + n) % cap := by
  intro n
  induction n with
  | zero =>
      intro ev h hh
      simp [popLoop, Nat.mod_eq_of_lt hh]
  | succ n ih =>
      intro ev h hh
      have h1 : (h + 1) % cap < cap := Nat.mod_lt _ hcap
      simp only [popLoop]
      rw [ih _ _ h1, Nat.mod_add_mod]
      congr 1
      omega

theorem popLoop_evicted_length {cap : ℕ} (ws : List ℚ) :
    ∀ (n : ℕ) (ev : List Bool) (h : ℕ),
      (popLoop cap ws ev h n).2.1.length = ev.length := by
  intro n
  induction n with
  | zero => intro ev h; simp [popLoop]
  | succ n ih => intro ev h; simp [popLoop, ih]

theorem writeBlock_length {α : Type} (cap : ℕ) :
    ∀ (es : List α) (ws : List ℚ) (elements : List α) (weights : List ℚ)
      (start : ℕ),
      (writeBlock cap elements weights start es ws).1.length
          = elements.length ∧
      (writeBlock cap elements weights start es ws).2.length
          = weights.length := by
  intro es
  induction es with
  | nil => intro ws elements weights start; simp [writeBlock]
  | cons e es ih =>
      intro ws elements weights start
      cases ws with
      | nil => simp [writeBlock]
      | cons w ws =>
          simp only [writeBlock]
          have := ih ws (elements.set (start % cap) e)
            (weights.set (start % cap) w) (start + 1)
          simpa using this

theorem updateLoop_length (ev : List Bool) :
    ∀ (pairs : List (ℕ × ℚ)) (ws : List ℚ),
      (updateLoop ev ws pairs).1.length = ws.length := by
  intro pairs
  induction pairs with
  | nil => intro ws; simp [updateLoop]
  | cons p rest ih =>
      intro ws
      obtain ⟨id, w⟩ := p
      simp only [updateLoop]
      split
      · exact ih ws
      · simpa using ih (ws.set id w)

theorem pendingChain_append {α : Type} {cap : ℕ} (es : List α) (ws : List ℚ)
    (hw : ws.length = es.length) :
    ∀ (ps : List (Pending α)) (s t : ℕ), pendingChain cap s ps t →
      pendingChain cap s (ps ++ [⟨t, es, ws⟩]) ((t + es.length) % cap) := by
  intro ps
  induction ps with
  | nil =>
      intro s t hch
      cases hch
      exact ⟨rfl, hw, rfl⟩
  | cons p ps ih =>
      intro s t hch
      obtain ⟨h1, h2, h3⟩ := hch
      exact ⟨h1, h2, ih _ _ h3⟩

theorem check_size_of_geom {cap h sz : ℕ} (hh : h < cap) (hsz : sz ≤ cap) :
    check_size cap h ((h + sz) % cap) sz = true := by
  have hm : (h + sz) % cap = if h + sz < cap then h + sz else h + sz - cap := by
    split
    · exact Nat.mod_eq_of_lt (by omega)
    · rw [Nat.mod_eq_sub_mod (by omega)]
      exact Nat.mod_eq_of_lt (by omega)
  rw [hm]
  unfold check_size
  split_ifs <;> simp <;> omega

/-! The reachability invariant. -/

theorem qstep_inv {α : Type} [Inhabited α]
    {c c' : Queue α × List (Pending α)}
    (h : QStep c c') (hinv : QInv c.1 c.2) : QInv c'.1 c'.2 := by
  cases h with
  | reserve q ps es ws hroom hlen =>
      obtain ⟨hcap, hhead, hsize, htot, htail, hstail, hchain, hev, hel, hwt⟩ :=
        hinv
      dsimp only at hcap hhead hsize htot htail hstail hchain hev hel hwt ⊢
      refine ⟨hcap, hhead, ?_, ?_, ?_, hstail, ?_, hev, hel, hwt⟩
      · simpa [reserveQ] using hroom
      · simp only [reserveQ, pendingTotal, List.map_append, List.sum_append,
          List.map_cons, List.sum_cons, List.map_nil, List.sum_nil] at htot ⊢
        omega
      · simp only [reserveQ]
        rw [htail, Nat.mod_add_mod, Nat.add_assoc]
      · simp only [reserveQ]
        exact pendingChain_append es ws hlen ps _ _ hchain
  | commit q p ps hord =>
      obtain ⟨hcap, hhead, hsize, htot, htail, hstail, hchain, hev, hel, hwt⟩ :=
        hinv
      dsimp only at hcap hhead hsize htot htail hstail hchain hev hel hwt ⊢
      obtain ⟨hstart, hplen, hrest⟩ := hchain
      have hW := writeBlock_length q.capacity p.es p.ws q.elements
        q.weights p.start
      refine ⟨hcap, hhead, hsize, ?_, htail, ?_, ?_, hev, ?_, ?_⟩
      · simp only [commitQ, pendingTotal, List.map_cons, List.sum_cons] at htot ⊢
        omega
      · simp only [commitQ]
        rw [hstart, hstail, Nat.mod_add_mod, Nat.add_assoc]
      · simp only [commitQ]
        rw [hstart]
        exact hrest
      · simp only [commitQ]
        rw [hW.1, hel]
      · simp only [commitQ]
        rw [hW.2, hwt]
  | pop q q' ps n hpop =>
      obtain ⟨hcap, hhead, hsize, htot, htail, hstail, hchain, hev, hel, hwt⟩ :=
        hinv
      dsimp only at hcap hhead hsize htot htail hstail hchain hev hel hwt ⊢
      simp only [block_pop] at hpop
      split_ifs at hpop with hc
      obtain ⟨hc1, hc2, _⟩ := hc
      cases hpop
      have hH : (popLoop q.capacity q.weights q.evicted q.head n).2.2
          = (q.head + n) % q.capacity :=
        popLoop_head_eq q.weights hcap n q.evicted q.head hhead
      refine ⟨hcap, ?_, by dsimp only; omega, ?_, ?_, ?_, hchain, ?_, hel, hwt⟩
      · dsimp only
        rw [hH]
        exact Nat.mod_lt _ hcap
      · dsimp only
        simp only [pendingTotal] at htot ⊢
        omega
      · dsimp only
        rw [hH, htail, Nat.mod_add_mod]
        congr 1
        omega
      · dsimp only
        rw [hH, hstail, Nat.mod_add_mod]
        congr 1
        omega
      · dsimp only
        rw [popLoop_evicted_length, hev]
  | upd q ps ids ws hlen =>
      obtain ⟨hcap, hhead, hsize, htot, htail, hstail, hchain, hev, hel, hwt⟩ :=
        hinv
      dsimp only at hcap hhead hsize htot htail hstail hchain hev hel hwt ⊢
      refine ⟨hcap, hhead, hsize, htot, htail, hstail, hchain, hev, hel, ?_⟩
      simp only [update]
      rw [updateLoop_length, hwt]
  | mark q ps idx =>
      obtain ⟨hcap, hhead, hsize, htot, htail, hstail, hchain, hev, hel, hwt⟩ :=
        hinv
      dsimp only at hcap hhead hsize htot htail hstail hchain hev hel hwt ⊢
      refine ⟨hcap, hhead, hsize, htot, htail, hstail, hchain, ?_, hel, hwt⟩
      simp only [get_element_and_mark]
      simpa using hev

theorem qreach_inv {α : Type} [Inhabited α] {cap : ℕ} (hcap : 0 < cap)
    {c : Queue α × List (Pending α)} (h : QReach cap c) : QInv c.1 c.2 := by
  induction h with
  | refl =>
      refine ⟨hcap, hcap, by simp [initQueue], by simp [initQueue, pendingTotal],
        by simp [initQueue], by simp [initQueue], by simp [initQueue, pendingChain],
        by simp [initQueue], by simp [initQueue], by simp [initQueue]⟩
  | tail hstep hlast ih => exact qstep_inv hlast ih

/-! Declarative characterization of the scanning phase. -/

theorem prefixW_zero {α : Type} (q : Queue α) : prefixW q 0 = 0 := by
  simp [prefixW]

theorem prefixW_succ {α : Type} (q : Queue α) (m : ℕ) :
    prefixW q (m + 1)
      = prefixW q m + q.weights.getD ((q.head + m) % q.capacity) 0 := by
  simp [prefixW, List.range_succ]

/-- Entry invariant of the inner scan loop: `acc_sum` is the prefix sum of
    the consumed weights, and (unless no weight has been consumed yet) the
    carried `w`/`id` are the weight and physical index last read. -/
def ScanEntry {α : Type} (q : Queue α) (st : ScanState) : Prop :=
  st.accSum = prefixW q st.nextIdx ∧
  (st.nextIdx = 0 ∨
    (1 ≤ st.nextIdx ∧
     st.id = (q.head + (st.nextIdx - 1)) % q.capacity ∧
     st.w = q.weights.getD st.id 0))

/-- Declarative spec of one draw of the stratified scan: the cursor advances
    monotonically to the FIRST position `m` (at least `1`, at most `size`)
    whose prefix sum makes the crossing `0 < acc_sum ∧ rand ≤ acc_sum` true,
    no earlier position (from the incoming cursor on) crossing; the recorded
    weight and physical id are those of the slot `m − 1` that triggered the
    crossing. -/
def SelectOne {α : Type} (q : Queue α) (size : ℕ) (rand : ℚ)
    (st st' : ScanState) : Prop :=
  st.nextIdx ≤ st'.nextIdx ∧
  1 ≤ st'.nextIdx ∧
  st'.nextIdx ≤ size ∧
  st'.accSum = prefixW q st'.nextIdx ∧
  0 < st'.accSum ∧
  rand ≤ st'.accSum ∧
  (∀ m, st.nextIdx ≤ m → m < st'.nextIdx →
    ¬(0 < prefixW q m ∧ rand ≤ prefixW q m)) ∧
  st'.id = (q.head + (st'.nextIdx - 1)) % q.capacity ∧
  st'.w = q.weights.getD st'.id 0

theorem selectOne_entry {α : Type} {q : Queue α} {size : ℕ} {rand : ℚ}
    {st st' : ScanState} (h : SelectOne q size rand st st') :
    ScanEntry q st' := by
  obtain ⟨_, h1, _, hacc, _, _, _, hid, hw⟩ := h
  exact ⟨hacc, Or.inr ⟨h1, hid, hw⟩⟩

/-- Soundness of the bounded inner loop with respect to the first-crossing
    spec, for any fuel. -/
theorem scanGo_sound {α : Type} [Inhabited α] (q : Queue α) (size : ℕ)
    (rand : ℚ) :
    ∀ (fuel : ℕ) (st : ScanState) (e : α) (q' : Queue α) (st' : ScanState),
      ScanEntry q st →
      scanGo q size rand fuel st = some (e, q', st') →
      SelectOne q size rand st st' ∧
      e = q.elements.getD st'.id default ∧
      q' = { q with evicted := q.evicted.set st'.id false } := by
  intro fuel
  induction fuel with
  | zero =>
      intro st e q' st' hentry h
      exact absurd h (by simp [scanGo])
  | succ fuel ih =>
      intro st e q' st' hentry h
      simp only [scanGo] at h
      by_cases hle : st.nextIdx ≤ size
      · rw [if_pos hle] at h
        by_cases hcross : 0 < st.accSum ∧ rand ≤ st.accSum
        · rw [if_pos hcross] at h
          by_cases hone : 1 ≤ st.nextIdx
          · rw [if_pos hone] at h
            simp only [Option.some.injEq, Prod.mk.injEq] at h
            obtain ⟨he, hq', hst'⟩ := h
            subst hst'
            obtain ⟨hacc, hcarry⟩ := hentry
            rcases hcarry with h0 | ⟨h1, hid, hw⟩
            · omega
            · refine ⟨⟨le_refl _, h1, hle, hacc, hcross.1, hcross.2,
                fun m hm1 hm2 => absurd (lt_of_le_of_lt hm1 hm2) (lt_irrefl _),
                hid, hw⟩, ?_, ?_⟩
              · rw [← he]
                simp [get_element_and_mark, hid]
              · rw [← hq']
                simp [get_element_and_mark, hid]
          · rw [if_neg hone] at h
            exact absurd h (by simp)
        · rw [if_neg hcross] at h
          by_cases hend : st.nextIdx = size
          · rw [if_pos hend] at h
            exact absurd h (by simp)
          · rw [if_neg hend] at h
            obtain ⟨hacc, _⟩ := hentry
            have hentry2 : ScanEntry q
                ⟨st.accSum + (get_weight q st.nextIdx).1, st.nextIdx + 1,
                 (get_weight q st.nextIdx).1, (get_weight q st.nextIdx).2⟩ := by
              constructor
              · simp only [get_weight, prefixW_succ]
                rw [hacc]
              · right
                refine ⟨by show 1 ≤ st.nextIdx + 1; omega, ?_, ?_⟩ <;>
                  simp [get_weight]
            obtain ⟨hsel, he, hq⟩ := ih _ e q' st' hentry2 h
            have hmono : st.nextIdx + 1 ≤ st'.nextIdx := hsel.1
            refine ⟨⟨by omega, hsel.2.1, hsel.2.2.1, hsel.2.2.2.1,
              hsel.2.2.2.2.1, hsel.2.2.2.2.2.1, ?_,
              hsel.2.2.2.2.2.2.2⟩, he, hq⟩
            intro m hm1 hm2
            rcases Nat.eq_or_lt_of_le hm1 with heq | hlt
            · rw [← heq, ← hacc]
              exact hcross
            · exact hsel.2.2.2.2.2.2.1 m (by show st.nextIdx + 1 ≤ m; omega)
                hm2
      · rw [if_neg hle] at h
        exact absurd h (by simp)

/-- Completeness of the bounded inner loop: with enough fuel, if some
    position within range crosses, the loop selects (it does not hit the
    exhaustion abort). -/
theorem scanGo_some {α : Type} [Inhabited α] (q : Queue α) (size : ℕ)
    (rand : ℚ) :
    ∀ (fuel : ℕ) (st : ScanState),
      ScanEntry q st →
      st.nextIdx ≤ size →
      (∃ m, st.nextIdx ≤ m ∧ m ≤ size ∧ 0 < prefixW q m ∧
        rand ≤ prefixW q m) →
      size + 1 ≤ fuel + st.nextIdx →
      ∃ out, scanGo q size rand fuel st = some out := by
  intro fuel
  induction fuel with
  | zero =>
      intro st hentry hst hex hfuel
      omega
  | succ fuel ih =>
      intro st hentry hst hex hfuel
      by_cases hcross : 0 < st.accSum ∧ rand ≤ st.accSum
      · by_cases hone : 1 ≤ st.nextIdx
        · refine ⟨((get_element_and_mark q (st.nextIdx - 1)).1,
            (get_element_and_mark q (st.nextIdx - 1)).2, st), ?_⟩
          simp only [scanGo]
          rw [if_pos hst, if_pos hcross, if_pos hone]
        · obtain ⟨hacc, _⟩ := hentry
          have h0 : st.nextIdx = 0 := by omega
          rw [hacc, h0, prefixW_zero] at hcross
          exact absurd hcross (by simp)
      · by_cases hend : st.nextIdx = size
        · obtain ⟨hacc, _⟩ := hentry
          obtain ⟨m, hm1, hm2, hm3, hm4⟩ := hex
          have hm : m = st.nextIdx := by omega
          rw [hm, ← hacc] at hm3 hm4
          exact absurd ⟨hm3, hm4⟩ hcross
        · obtain ⟨hacc, _⟩ := hentry
          have hentry2 : ScanEntry q
              ⟨st.accSum + (get_weight q st.nextIdx).1, st.nextIdx + 1,
               (get_weight q st.nextIdx).1, (get_weight q st.nextIdx).2⟩ := by
            constructor
            · simp only [get_weight, prefixW_succ]
              rw [hacc]
            · right
              refine ⟨by show 1 ≤ st.nextIdx + 1; omega, ?_, ?_⟩ <;>
                simp [get_weight]
          obtain ⟨m, hm1, hm2, hm3, hm4⟩ := hex
          have hmne : m ≠ st.nextIdx := by
            intro hmeq
            rw [hmeq, ← hacc] at hm3 hm4
            exact hcross ⟨hm3, hm4⟩
          obtain ⟨o, hout⟩ := ih
            ⟨st.accSum + (get_weight q st.nextIdx).1, st.nextIdx + 1,
             (get_weight q st.nextIdx).1, (get_weight q st.nextIdx).2⟩
            hentry2 (by show st.nextIdx + 1 ≤ size; omega)
            ⟨m, by show st.nextIdx + 1 ≤ m; omega, hm2, hm3, hm4⟩
            (by show size + 1 ≤ fuel + (st.nextIdx + 1); omega)
          refine ⟨o, ?_⟩
          simp only [scanGo]
          rw [if_pos hst, if_neg hcross, if_neg hend]
          exact hout

/-- Soundness of `scanOne` (the loop with its actual fuel). -/
theorem scanOne_sound {α : Type} [Inhabited α] (q : Queue α) (size : ℕ)
    (rand : ℚ) :
    ∀ (st : ScanState) (e : α) (q' : Queue α) (st' : ScanState),
      ScanEntry q st →
      scanOne q size rand st = some (e, q', st') →
      SelectOne q size rand st st' ∧
      e = q.elements.getD st'.id default ∧
      q' = { q with evicted := q.evicted.set st'.id false } := by
  intro st e q' st' hentry h
  exact scanGo_sound q size rand _ st e q' st' hentry h

/-- Completeness of `scanOne`: if some position within range crosses, the
    loop selects. -/
theorem scanOne_some {α : Type} [Inhabited α] (q : Queue α) (size : ℕ)
    (rand : ℚ) :
    ∀ (st : ScanState),
      ScanEntry q st →
      st.nextIdx ≤ size →
      (∃ m, st.nextIdx ≤ m ∧ m ≤ size ∧ 0 < prefixW q m ∧
        rand ≤ prefixW q m) →
      ∃ out, scanOne q size rand st = some out := by
  intro st hentry hst hex
  exact scanGo_some q size rand _ st hentry hst hex (by omega)

/-- The queue `q'` differs from `q` at most in the values of the evicted
    flags: everything the scan reads (geometry, weights, elements) agrees. -/
def MarkOnly {α : Type} (q q' : Queue α) : Prop :=
  q'.capacity = q.capacity ∧ q'.head = q.head ∧ q'.tail = q.tail ∧
  q'.size = q.size ∧ q'.safe_tail = q.safe_tail ∧
  q'.safe_size = q.safe_size ∧ q'.sum = q.sum ∧
  q'.elements = q.elements ∧ q'.weights = q.weights ∧
  q'.evicted.length = q.evicted.length

theorem markOnly_refl {α : Type} (q : Queue α) : MarkOnly q q :=
  ⟨rfl, rfl, rfl, rfl, rfl, rfl, rfl, rfl, rfl, rfl⟩

theorem markOnly_trans {α : Type} {q1 q2 q3 : Queue α}
    (h1 : MarkOnly q1 q2) (h2 : MarkOnly q2 q3) : MarkOnly q1 q3 := by
  obtain ⟨a1, b1, c1, d1, e1, f1, g1, h1e, i1, j1⟩ := h1
  obtain ⟨a2, b2, c2, d2, e2, f2, g2, h2e, i2, j2⟩ := h2
  exact ⟨a2.trans a1, b2.trans b1, c2.trans c1, d2.trans d1, e2.trans e1,
    f2.trans f1, g2.trans g1, h2e.trans h1e, i2.trans i1, j2.trans j1⟩

theorem markOnly_set {α : Type} (q : Queue α) (id : ℕ) (b : Bool) :
    MarkOnly q { q with evicted := q.evicted.set id b } :=
  ⟨rfl, rfl, rfl, rfl, rfl, rfl, rfl, rfl, rfl, by simp⟩

theorem prefixW_markOnly {α : Type} {q q' : Queue α} (h : MarkOnly q q') :
    ∀ m, prefixW q' m = prefixW q m := by
  intro m
  simp [prefixW, h.2.1, h.1, h.2.2.2.2.2.2.2.2.1]

theorem scanEntry_markOnly {α : Type} {q q' : Queue α} (h : MarkOnly q q')
    {st : ScanState} (he : ScanEntry q' st) : ScanEntry q st := by
  obtain ⟨hacc, hcarry⟩ := he
  refine ⟨by rw [hacc, prefixW_markOnly h], ?_⟩
  rcases hcarry with h0 | ⟨h1, hid, hw⟩
  · exact Or.inl h0
  · refine Or.inr ⟨h1, ?_, ?_⟩
    · rw [hid, h.2.1, h.1]
    · rw [hw, h.2.2.2.2.2.2.2.2.1]

theorem selectOne_markOnly {α : Type} {q q' : Queue α} (h : MarkOnly q q')
    {size : ℕ} {rand : ℚ} {st st' : ScanState}
    (hs : SelectOne q' size rand st st') : SelectOne q size rand st st' := by
  obtain ⟨a, b, c, d, e, f, g, hid, hw⟩ := hs
  refine ⟨a, b, c, by rw [d, prefixW_markOnly h], e, f, ?_, ?_, ?_⟩
  · intro m hm1 hm2
    rw [← prefixW_markOnly h]
    exact g m hm1 hm2
  · rw [hid, h.2.1, h.1]
  · rw [hw, h.2.2.2.2.2.2.2.2.1]

/-- The list of clamped random values used by the batch loop: for the `i`-th
    draw `u`, `min (sum − 1/5) (u + i·segment)`. -/
def randList (sum segment : ℚ) : List ℚ → ℕ → List ℚ
  | [], _ => []
  | u :: us, i =>
      min (sum - 1/5) (u + i * segment) :: randList sum segment us (i + 1)

theorem randList_length (sum segment : ℚ) :
    ∀ (us : List ℚ) (i : ℕ), (randList sum segment us i).length = us.length := by
  intro us
  induction us with
  | nil => intro i; simp [randList]
  | cons u us ih => intro i; simp [randList, ih]

theorem randList_getD (sum segment : ℚ) :
    ∀ (us : List ℚ) (i k : ℕ), k < us.length →
      (randList sum segment us i).getD k 0
        = min (sum - 1/5) (us.getD k 0 + ((i + k : ℕ) : ℚ) * segment) := by
  intro us
  induction us with
  | nil => intro i k hk; simp at hk
  | cons u us ih =>
      intro i k hk
      cases k with
      | zero => simp [randList]
      | succ k =>
          simp only [randList, List.getD_cons_succ]
          rw [ih (i + 1) k (by simpa using hk)]
          have hik : i + 1 + k = i + (k + 1) := by omega
          rw [hik]

/-- Declarative spec of the whole scanning phase: each draw's random value
    is consumed in order, each selection satisfies the first-crossing spec
    `SelectOne` starting from the previous draw's final scan state, and the
    recorded weight/id lists collect the selection states.  In particular
    the cursor is monotone across the whole batch. -/
def ScanRel {α : Type} (q : Queue α) (size : ℕ) :
    List ℚ → ScanState → List ℚ → List ℕ → ScanState → Prop
  | [], st, ws, ids, st' => ws = [] ∧ ids = [] ∧ st' = st
  | r :: rs, st, ws, ids, st' =>
      ∃ mid : ScanState, SelectOne q size r st mid ∧
        ∃ ws' ids', ws = mid.w :: ws' ∧ ids = mid.id :: ids' ∧
          ScanRel q size rs mid ws' ids' st'

theorem scanRel_mono {α : Type} (q : Queue α) (size : ℕ) :
    ∀ (rs : List ℚ) (st : ScanState) (ws : List ℚ) (ids : List ℕ)
      (st' : ScanState),
      ScanRel q size rs st ws ids st' → st.nextIdx ≤ st'.nextIdx := by
  intro rs
  induction rs with
  | nil =>
      intro st ws ids st' h
      rw [h.2.2]
  | cons r rs ih =>
      intro st ws ids st' h
      obtain ⟨mid, hsel, ws', ids', _, _, hrest⟩ := h
      exact le_trans hsel.1 (ih mid ws' ids' st' hrest)

theorem scanRel_weights {α : Type} (q : Queue α) (size : ℕ) :
    ∀ (rs : List ℚ) (st : ScanState) (ws : List ℚ) (ids : List ℕ)
      (st' : ScanState),
      ScanRel q size rs st ws ids st' →
      List.Forall₂ (fun (w : ℚ) (id : ℕ) => w = q.weights.getD id 0) ws ids := by
  intro rs
  induction rs with
  | nil =>
      intro st ws ids st' h
      rw [h.1, h.2.1]
      exact List.Forall₂.nil
  | cons r rs ih =>
      intro st ws ids st' h
      obtain ⟨mid, hsel, ws', ids', hws, hids, hrest⟩ := h
      rw [hws, hids]
      exact List.Forall₂.cons hsel.2.2.2.2.2.2.2.2 (ih mid ws' ids' st' hrest)

theorem markOnly_symm {α : Type} {q q' : Queue α} (h : MarkOnly q q') :
    MarkOnly q' q := by
  obtain ⟨a, b, c, d, e, f, g, h1, i, j⟩ := h
  exact ⟨a.symm, b.symm, c.symm, d.symm, e.symm, f.symm, g.symm, h1.symm,
    i.symm, j.symm⟩

theorem scanRel_markOnly {α : Type} {q q' : Queue α} (h : MarkOnly q q')
    {size : ℕ} :
    ∀ (rs : List ℚ) (st : ScanState) (ws : List ℚ) (ids : List ℕ)
      (st' : ScanState),
      ScanRel q' size rs st ws ids st' → ScanRel q size rs st ws ids st' := by
  intro rs
  induction rs with
  | nil => intro st ws ids st' hr; exact hr
  | cons r rs ih =>
      intro st ws ids st' hr
      obtain ⟨mid, hsel, ws', ids', hws, hids, hrest⟩ := hr
      exact ⟨mid, selectOne_markOnly h hsel, ws', ids', hws, hids,
        ih mid ws' ids' st' hrest⟩

/-- Soundness of the batch scanning loop with respect to `ScanRel`:
    if `scanLoop` returns, the outputs satisfy the first-crossing spec draw
    by draw, the elements are copies of the slots named by the returned
    physical ids, and the queue is changed only in its evicted flags. -/
theorem scanLoop_sound {α : Type} [Inhabited α] {size : ℕ} {sum segment : ℚ} :
    ∀ (us : List ℚ) (i : ℕ) (q : Queue α) (st : ScanState)
      (es : List α) (ws : List ℚ) (ids : List ℕ) (qf : Queue α)
      (stf : ScanState),
      ScanEntry q st →
      scanLoop size sum segment q us i st = some (es, ws, ids, qf, stf) →
      ScanRel q size (randList sum segment us i) st ws ids stf ∧
      es = ids.map (fun id => q.elements.getD id default) ∧
      MarkOnly q qf ∧ ScanEntry q stf := by
  intro us
  induction us with
  | nil =>
      intro i q st es ws ids qf stf hentry h
      simp only [scanLoop, Option.some.injEq, Prod.mk.injEq] at h
      obtain ⟨h1, h2, h3, h4, h5⟩ := h
      subst h1 h2 h3 h4 h5
      exact ⟨⟨rfl, rfl, rfl⟩, rfl, markOnly_refl q, hentry⟩
  | cons u us ih =>
      intro i q st es ws ids qf stf hentry h
      simp only [scanLoop] at h
      cases hone : scanOne q size (min (sum - 1/5) (u + i * segment)) st with
      | none => rw [hone] at h; exact absurd h (by simp)
      | some out =>
          obtain ⟨e, q', st'⟩ := out
          rw [hone] at h
          dsimp only at h
          cases hloop : scanLoop size sum segment q' us (i + 1) st' with
          | none =>
              rw [hloop] at h
              exact absurd h (by simp)
          | some out2 =>
              obtain ⟨es2, ws2, ids2, qf2, stf2⟩ := out2
              rw [hloop] at h
              dsimp only at h
              simp only [Option.some.injEq, Prod.mk.injEq] at h
              obtain ⟨h1, h2, h3, h4, h5⟩ := h
              subst h1 h2 h3 h4 h5
              obtain ⟨hsel, he, hq'⟩ :=
                scanOne_sound q size _ st e q' st' hentry hone
              have hmark : MarkOnly q q' := by
                rw [hq']
                exact markOnly_set q st'.id false
              have hentry' : ScanEntry q' st' :=
                scanEntry_markOnly (markOnly_symm hmark) (selectOne_entry hsel)
              obtain ⟨hrel2, hes2, hmark2, hentryf⟩ :=
                ih (i + 1) q' st' es2 ws2 ids2 qf2 stf2 hentry' hloop
              refine ⟨?_, ?_, markOnly_trans hmark hmark2,
                scanEntry_markOnly hmark hentryf⟩
              · exact ⟨st', hsel, ws2, ids2, rfl, rfl,
                  scanRel_markOnly hmark _ st' ws2 ids2 stf2 hrel2⟩
              · rw [List.map_cons, ← he, hes2, hmark.2.2.2.2.2.2.2.1]


/-- Case analysis of a successful `samplePriv` run: the draw count matches
    the batch size, the scan succeeded, the conditional overflow pop
    succeeded, and the returned weights are the pipeline applied to the
    selected raw weights with the re-read reserved size. -/
theorem samplePriv_unfold {α : Type} [Inhabited α] {fpow : ℚ → ℚ → ℚ}
    {s : Replay α} {b : ℕ} {us : List ℚ} {es : List α} {wfin : List ℚ}
    {ids : List ℕ} {s' : Replay α}
    (h : samplePriv fpow s b us = some (es, wfin, ids, s')) :
    us.length = b ∧
    ∃ ws qf stf q2,
      scanLoop s.storage.safe_size s.storage.sum (s.storage.sum / (b : ℚ))
          s.storage us 0 ⟨0, 0, 0, 0⟩ = some (es, ws, ids, qf, stf) ∧
      (if s.capacity < qf.size then block_pop qf (qf.size - s.capacity)
       else some qf) = some q2 ∧
      wfin = isWeights fpow s.beta qf.size s.storage.sum ws ∧
      s' = { s with storage := q2 } := by
  unfold samplePriv at h
  split_ifs at h with hub
  rcases hsl : scanLoop s.storage.safe_size s.storage.sum
      (s.storage.sum / (b : ℚ)) s.storage us 0 ⟨0, 0, 0, 0⟩ with _ | out
  · rw [show safe_size s.storage = (s.storage.safe_size, s.storage.sum) from rfl]
      at h
    dsimp only at h
    rw [hsl] at h
    exact absurd h (by simp)
  · obtain ⟨es0, ws0, ids0, qf, stf⟩ := out
    rw [show safe_size s.storage = (s.storage.safe_size, s.storage.sum) from rfl]
      at h
    dsimp only at h
    rw [hsl] at h
    dsimp only at h
    rcases hpop : (if s.capacity < qf.size then
        block_pop qf (qf.size - s.capacity) else some qf) with _ | q2
    · rw [hpop] at h
      exact absurd h (by simp)
    · rw [hpop] at h
      dsimp only at h
      simp only [Option.some.injEq, Prod.mk.injEq] at h
      obtain ⟨h1, h2, h3, h4⟩ := h
      subst h1 h3 h4
      exact ⟨hub, ws0, qf, stf, q2, rfl, hpop, h2.symm, rfl⟩

/-- Ring-offset arithmetic: when `tail = (head + sz) % cap` with `head` in
    range and `0 < sz < cap`, the wrap-around difference recovers `sz`. -/
theorem offset_mod {cap h sz : ℕ} (hh : h < cap) (h1 : 0 < sz)
    (h2 : sz < cap) : ((h + sz) % cap + cap - h) % cap = sz := by
  rcases Nat.lt_or_ge (h + sz) cap with hlt | hge
  · rw [Nat.mod_eq_of_lt hlt]
    have he : h + sz + cap - h = sz + cap := by omega
    rw [he, Nat.add_mod_right, Nat.mod_eq_of_lt h2]
  · have he : (h + sz) % cap = h + sz - cap := by
      rw [Nat.mod_eq_sub_mod hge, Nat.mod_eq_of_lt (by omega)]
    rw [he]
    have he2 : h + sz - cap + cap - h = sz := by omega
    rw [he2, Nat.mod_eq_of_lt h2]

/-! Concrete fixtures evaluated by the witnesses. -/

/-- A concrete instantiation of the external elementwise power for the
    witnesses: the exponent-one case (`p ^ 1 = p`). -/
def powConst : ℚ → ℚ → ℚ := fun b _ => b

/-- A concrete store of physical capacity `5` holding four committed slots
    of weight `1` (the state reached from `initQueue ℕ 5` by appending four
    elements with unit weights). -/
def wQ : Queue ℕ :=
  ⟨5, 0, 4, 4, 4, 4, 4, [false, false, false, false, false],
   [10, 11, 12, 13, 0], [1, 1, 1, 1, 0]⟩

/-- A concrete replay state around `wQ` (nominal capacity 4, `α = β = 1`). -/
def wRep : Replay ℕ :=
  ⟨1, 1, 4, wQ, 4, [], 0⟩

/-- The full store of physical capacity 1 (one committed slot), reached from
    the initial queue by one append of one element of weight 1. -/
def fullQ : Queue ℕ :=
  commitQ (reserveQ (initQueue ℕ 1) 1) 0 [7] [1]

theorem fullQ_reach : QReach 1 (fullQ, ([] : List (Pending ℕ))) := by
  have h1 : QStep (initQueue ℕ 1, [])
      (reserveQ (initQueue ℕ 1) 1, [⟨0, [7], [1]⟩]) :=
    QStep.reserve (initQueue ℕ 1) [] [7] [1] (by decide) rfl
  have h2 : QStep (reserveQ (initQueue ℕ 1) 1, [⟨0, [7], [1]⟩])
      (fullQ, []) :=
    QStep.commit (reserveQ (initQueue ℕ 1) 1) ⟨0, [7], [1]⟩ [] rfl
  exact Relation.ReflTransGen.tail (Relation.ReflTransGen.single h1) h2

/-- A store of physical capacity 2 with one slot reserved but not yet
    committed (a producer between phase 1 and phase 3 of `block_append`). -/
def reservedQ : Queue ℕ :=
  reserveQ (initQueue ℕ 2) 1

theorem reservedQ_reach :
    QReach 2 (reservedQ, [(⟨0, [7], [1]⟩ : Pending ℕ)]) :=
  Relation.ReflTransGen.single
    (QStep.reserve (initQueue ℕ 2) [] [7] [1] (by decide) rfl)

theorem getD_set_self_q {l : List ℚ} {i : ℕ} (h : i < l.length) (a : ℚ) :
    (l.set i a).getD i 0 = a := by
  rw [List.getD_eq_getElem?_getD, List.getElem?_set_self h]
  rfl

theorem getD_set_ne_q {l : List ℚ} {i j : ℕ} (h : i ≠ j) (a : ℚ) :
    (l.set i a).getD j 0 = l.getD j 0 := by
  rw [List.getD_eq_getElem?_getD, List.getElem?_set_ne h,
    ← List.getD_eq_getElem?_getD]

/-- Characterization of the `update` loop on a duplicate-free id list:
    evicted ids keep their stored weight, live in-range ids take the fresh
    weight, untouched ids are unchanged, the accumulated diff is the sum of
    `new − old` over the live pairs, and when every id is evicted the loop
    is the identity with diff `0`. -/
theorem updateLoop_spec (ev : List Bool) :
    ∀ (pairs : List (ℕ × ℚ)) (ws : List ℚ),
      (pairs.map Prod.fst).Nodup →
      ((∀ p ∈ pairs, ev.getD p.1 false = true →
          (updateLoop ev ws pairs).1.getD p.1 0 = ws.getD p.1 0) ∧
       (∀ p ∈ pairs, ev.getD p.1 false = false → p.1 < ws.length →
          (updateLoop ev ws pairs).1.getD p.1 0 = p.2) ∧
       (∀ j, j ∉ pairs.map Prod.fst →
          (updateLoop ev ws pairs).1.getD j 0 = ws.getD j 0) ∧
       (updateLoop ev ws pairs).2
          = ((pairs.filter (fun p => !ev.getD p.1 false)).map
              (fun p => p.2 - ws.getD p.1 0)).sum ∧
       ((∀ p ∈ pairs, ev.getD p.1 false = true) →
          updateLoop ev ws pairs = (ws, 0))) := by
  intro pairs
  induction pairs with
  | nil =>
      intro ws hnd
      refine ⟨by simp, by simp, ?_, ?_, ?_⟩ <;> simp [updateLoop]
  | cons p rest ih =>
      intro ws hnd
      obtain ⟨id, w⟩ := p
      simp only [List.map_cons, List.nodup_cons] at hnd
      obtain ⟨hid_notin, hnd'⟩ := hnd
      by_cases hev : ev.getD id false = true
      · have hloop : updateLoop ev ws ((id, w) :: rest)
            = updateLoop ev ws rest := by
          simp only [updateLoop]
          rw [if_pos hev]
        have hcond : ¬((!ev.getD id false) = true) := by
          rw [hev]
          decide
        obtain ⟨ih1, ih2, ih3, ih4, ih5⟩ := ih ws hnd'
        refine ⟨?_, ?_, ?_, ?_, ?_⟩
        · intro p hp hpe
          rw [hloop]
          by_cases hpc : p.1 = id
          · rw [hpc]
            exact ih3 id hid_notin
          · rcases List.mem_cons.mp hp with heq | hmem
            · exact absurd (congrArg Prod.fst heq) (by simpa using hpc)
            · exact ih1 p hmem hpe
        · intro p hp hpe hplt
          rw [hloop]
          rcases List.mem_cons.mp hp with heq | hmem
          · exfalso
            have hpfst : p.1 = id := congrArg Prod.fst heq
            rw [hpfst] at hpe
            rw [hpe] at hev
            exact absurd hev (by decide)
          · exact ih2 p hmem hpe hplt
        · intro j hj
          rw [hloop]
          exact ih3 j (fun hmem => hj (List.mem_cons.mpr (Or.inr hmem)))
        · rw [hloop, ih4]
          have hf : (((id, w) :: rest).filter
              (fun p => !ev.getD p.1 false))
              = rest.filter (fun p => !ev.getD p.1 false) := by
            rw [List.filter_cons]
            dsimp only
            rw [if_neg hcond]
          rw [hf]
        · intro hall
          rw [hloop]
          exact ih5 (fun p hp => hall p (List.mem_cons.mpr (Or.inr hp)))
      · have hevf : ev.getD id false = false := by
          cases hB : ev.getD id false
          · rfl
          · exact absurd hB hev
        have hloop : updateLoop ev ws ((id, w) :: rest)
            = ((updateLoop ev (ws.set id w) rest).1,
               (w - ws.getD id 0) + (updateLoop ev (ws.set id w) rest).2) := by
          simp only [updateLoop]
          rw [if_neg hev]
        have hcond : (!ev.getD id false) = true := by
          rw [hevf]
          decide
        obtain ⟨ih1, ih2, ih3, ih4, ih5⟩ := ih (ws.set id w) hnd'
        refine ⟨?_, ?_, ?_, ?_, ?_⟩
        · intro p hp hpe
          rw [hloop]
          dsimp only
          rcases List.mem_cons.mp hp with heq | hmem
          · exfalso
            have hpfst : p.1 = id := congrArg Prod.fst heq
            rw [hpfst, hevf] at hpe
            exact absurd hpe (by decide)
          · have hpne : p.1 ≠ id := by
              intro hc
              exact hid_notin (hc ▸ List.mem_map_of_mem Prod.fst hmem)
            rw [ih1 p hmem hpe, getD_set_ne_q (fun hc => hpne hc.symm)]
        · intro p hp hpe hplt
          rw [hloop]
          dsimp only
          rcases List.mem_cons.mp hp with heq | hmem
          · have hpfst : p.1 = id := congrArg Prod.fst heq
            rw [hpfst]
            rw [ih3 id hid_notin]
            have hlt2 : id < ws.length := by
              rw [hpfst] at hplt
              exact hplt
            rw [getD_set_self_q hlt2]
            have hsnd : p.2 = w := congrArg Prod.snd heq
            exact hsnd.symm
          · have hpne : p.1 ≠ id := by
              intro hc
              exact hid_notin (hc ▸ List.mem_map_of_mem Prod.fst hmem)
            exact ih2 p hmem hpe (by simpa using hplt)
        · intro j hj
          rw [hloop]
          dsimp only
          have hjne : j ≠ id := by
            intro hc
            exact hj (List.mem_cons.mpr (Or.inl hc))
          rw [ih3 j (fun hmem => hj (List.mem_cons.mpr (Or.inr hmem))),
            getD_set_ne_q (fun hc => hjne hc.symm)]
        · rw [hloop]
          dsimp only
          rw [ih4]
          have hf : (((id, w) :: rest).filter
              (fun p => !ev.getD p.1 false))
              = (id, w) :: rest.filter (fun p => !ev.getD p.1 false) := by
            rw [List.filter_cons]
            dsimp only
            rw [if_pos hcond]
          rw [hf, List.map_cons, List.sum_cons]
          have hmapeq : (rest.filter (fun p => !ev.getD p.1 false)).map
                (fun p => p.2 - (ws.set id w).getD p.1 0)
              = (rest.filter (fun p => !ev.getD p.1 false)).map
                (fun p => p.2 - ws.getD p.1 0) := by
            apply List.map_congr_left
            intro p hp
            have hmem : p ∈ rest := (List.mem_filter.mp hp).1
            have hpne : p.1 ≠ id := by
              intro hc
              exact hid_notin (hc ▸ List.mem_map_of_mem Prod.fst hmem)
            rw [getD_set_ne_q (fun hc => hpne hc.symm)]
          rw [hmapeq]
        · intro hall
          exfalso
          have hh := hall (id, w) (List.mem_cons.mpr (Or.inl rfl))
          rw [hevf] at hh
          exact absurd hh (by decide)

theorem list_eq_of_getD {l1 l2 : List ℚ} (hlen : l1.length = l2.length)
    (h : ∀ j, j < l1.length → l1.getD j 0 = l2.getD j 0) : l1 = l2 := by
  apply List.ext_getElem hlen
  intro i h1 h2
  have hh := h i h1
  rw [List.getD_eq_getElem?_getD, List.getD_eq_getElem?_getD,
    List.getElem?_eq_getElem h1, List.getElem?_eq_getElem h2] at hh
  simpa using hh

/-- Characterization of the reading loop of `get_new_content`: the elements
    are copies of the slots at logical offsets `cur … cur+n−1`, the weight
    vector is overwritten at exactly those positions with the stored
    weights, and the queue changes only in its evicted flags. -/
theorem newContentLoop_spec {α : Type} [Inhabited α] :
    ∀ (n : ℕ) (q : Queue α) (ws : List ℚ) (cur : ℕ),
      ((newContentLoop q ws cur n).1
         = (List.range n).map (fun k =>
             q.elements.getD ((q.head + (cur + k)) % q.capacity) default)) ∧
      ((newContentLoop q ws cur n).2.1.length = ws.length) ∧
      (∀ j, (newContentLoop q ws cur n).2.1.getD j 0
         = if cur ≤ j ∧ j < cur + n ∧ j < ws.length
           then q.weights.getD ((q.head + j) % q.capacity) 0
           else ws.getD j 0) ∧
      MarkOnly q (newContentLoop q ws cur n).2.2 := by
  intro n
  induction n with
  | zero =>
      intro q ws cur
      refine ⟨by simp [newContentLoop], by simp [newContentLoop], ?_,
        by simp [newContentLoop, markOnly_refl]⟩
      intro j
      simp only [newContentLoop]
      split_ifs with hcond
      · omega
      · rfl
  | succ n ih =>
      intro q ws cur
      have hmark : MarkOnly q (get_element_and_mark q cur).2 :=
        markOnly_set q ((q.head + cur) % q.capacity) false
      obtain ⟨ih1, ih2, ih3, ih4⟩ := ih (get_element_and_mark q cur).2
        (ws.set cur (get_weight q cur).1) (cur + 1)
      refine ⟨?_, ?_, ?_, ?_⟩
      · show (get_element_and_mark q cur).1
            :: (newContentLoop (get_element_and_mark q cur).2
                (ws.set cur (get_weight q cur).1) (cur + 1) n).1 = _
        rw [ih1, List.range_succ_eq_map, List.map_cons, List.map_map]
        congr 1
        apply List.map_congr_left
        intro k hk
        simp only [Function.comp_apply]
        rw [hmark.2.2.2.2.2.2.2.1, hmark.2.1, hmark.1]
        have hik : cur + 1 + k = cur + (k + 1) := by omega
        rw [hik]
      · show (newContentLoop (get_element_and_mark q cur).2
            (ws.set cur (get_weight q cur).1) (cur + 1) n).2.1.length = _
        rw [ih2]
        simp
      · intro j
        show (newContentLoop (get_element_and_mark q cur).2
            (ws.set cur (get_weight q cur).1) (cur + 1) n).2.1.getD j 0 = _
        rw [ih3 j]
        rw [hmark.2.2.2.2.2.2.2.2.1, hmark.2.1, hmark.1]
        by_cases hj : j = cur
        · subst hj
          rw [if_neg (by omega)]
          by_cases hjl : j < ws.length
          · rw [if_pos (⟨le_refl j, by omega, hjl⟩ :
              j ≤ j ∧ j < j + (n + 1) ∧ j < ws.length),
              getD_set_self_q hjl]
            rfl
          · rw [if_neg (by
              intro hc
              exact hjl hc.2.2)]
            rw [List.set_eq_of_length_le (by omega)]
        · rw [getD_set_ne_q (fun hc => hj hc.symm)]
          have hlen2 : (ws.set cur (get_weight q cur).1).length
              = ws.length := by simp
          rw [hlen2]
          split_ifs with hA hB hB
          · rfl
          · omega
          · omega
          · rfl
      · show MarkOnly q (newContentLoop (get_element_and_mark q cur).2
            (ws.set cur (get_weight q cur).1) (cur + 1) n).2.2
        exact markOnly_trans hmark ih4

theorem getD_range_map (f : ℕ → ℚ) (n j : ℕ) (hj : j < n) :
    ((List.range n).map f).getD j 0 = f j := by
  rw [List.getD_eq_getElem?_getD, List.getElem?_map, List.getElem?_range hj]
  rfl

/-- C2 (amended): when the drain count `n = num_add − last_query` is
    positive and within the committed region, `get_new_content` returns
    exactly `n` records — the elements of the `n` slots at the head —
    paired with the STORED weights of those slots (the `torch::ones` vector
    is overwritten entry by entry before being returned), advances
    `last_query_` by `n`, and pops exactly those `n` slots from the store
    via `block_pop` (head advances by `n`, both sizes drop by `n`). -/
theorem c2_get_new_content {α : Type} [Inhabited α] (cap : ℕ)
    (hcap : 0 < cap) (s : Replay α) (hreach : QReach cap (s.storage, []))
    (n : ℕ) (hne : s.num_add - s.last_query = n) (hpos : 0 < n)
    (hn : n ≤ s.storage.safe_size) :
    ∃ q2 : Queue α,
      block_pop (newContentLoop s.storage (List.replicate n (1 : ℚ)) 0 n).2.2 n
        = some q2 ∧
      get_new_content s = some
        ((n,
          (List.range n).map (fun k =>
            s.storage.elements.getD
              ((s.storage.head + k) % s.storage.capacity) default),
          (List.range n).map (fun k =>
            s.storage.weights.getD
              ((s.storage.head + k) % s.storage.capacity) 0)),
         { s with storage := q2, last_query := s.last_query + n }) ∧
      q2.head = (s.storage.head + n) % s.storage.capacity ∧
      q2.size = s.storage.size - n ∧
      q2.safe_size = s.storage.safe_size - n := by
  have hinv := qreach_inv hcap hreach
  obtain ⟨hc, hh, hs, ht, htl, hstl, hch, hl1, hl2, hl3⟩ := hinv
  dsimp only at hc hh hs ht htl hstl
  simp only [pendingTotal, List.map_nil, List.sum_nil, Nat.add_zero] at ht
  obtain ⟨hsp1, hsp2, hsp3, hsp4⟩ :=
    newContentLoop_spec n s.storage (List.replicate n (1 : ℚ)) 0
  have hw : (newContentLoop s.storage (List.replicate n (1 : ℚ)) 0 n).2.2.weights
      = s.storage.weights := hsp4.2.2.2.2.2.2.2.2.1
  have hhd : (newContentLoop s.storage (List.replicate n (1 : ℚ)) 0 n).2.2.head
      = s.storage.head := hsp4.2.1
  have hcp : (newContentLoop s.storage (List.replicate n (1 : ℚ)) 0 n).2.2.capacity
      = s.storage.capacity := hsp4.1
  have hsz : (newContentLoop s.storage (List.replicate n (1 : ℚ)) 0 n).2.2.size
      = s.storage.size := hsp4.2.2.2.1
  have hss : (newContentLoop s.storage (List.replicate n (1 : ℚ)) 0 n).2.2.safe_size
      = s.storage.safe_size := hsp4.2.2.2.2.2.1
  have hst : (newContentLoop s.storage (List.replicate n (1 : ℚ)) 0 n).2.2.safe_tail
      = s.storage.safe_tail := hsp4.2.2.2.2.1
  have hcap2 : 0 < s.storage.capacity := hc
  have hph : (popLoop
      (newContentLoop s.storage (List.replicate n (1 : ℚ)) 0 n).2.2.capacity
      (newContentLoop s.storage (List.replicate n (1 : ℚ)) 0 n).2.2.weights
      (newContentLoop s.storage (List.replicate n (1 : ℚ)) 0 n).2.2.evicted
      (newContentLoop s.storage (List.replicate n (1 : ℚ)) 0 n).2.2.head n).2.2
      = (s.storage.head + n) % s.storage.capacity := by
    rw [popLoop_head_eq _ (by rw [hcp]; exact hcap2) n _ _
      (by rw [hhd, hcp]; exact hh), hhd, hcp]
  have hguard : n ≤ (newContentLoop s.storage (List.replicate n (1 : ℚ)) 0 n).2.2.safe_size ∧
      n ≤ (newContentLoop s.storage (List.replicate n (1 : ℚ)) 0 n).2.2.size ∧
      check_size
        (newContentLoop s.storage (List.replicate n (1 : ℚ)) 0 n).2.2.capacity
        (popLoop
          (newContentLoop s.storage (List.replicate n (1 : ℚ)) 0 n).2.2.capacity
          (newContentLoop s.storage (List.replicate n (1 : ℚ)) 0 n).2.2.weights
          (newContentLoop s.storage (List.replicate n (1 : ℚ)) 0 n).2.2.evicted
          (newContentLoop s.storage (List.replicate n (1 : ℚ)) 0 n).2.2.head n).2.2
        (newContentLoop s.storage (List.replicate n (1 : ℚ)) 0 n).2.2.safe_tail
        ((newContentLoop s.storage (List.replicate n (1 : ℚ)) 0 n).2.2.safe_size - n)
        = true := by
    refine ⟨by rw [hss]; exact hn, by rw [hsz]; omega, ?_⟩
    rw [hph, hst, hcp, hss]
    have hstval : s.storage.safe_tail
        = (((s.storage.head + n) % s.storage.capacity)
            + (s.storage.safe_size - n)) % s.storage.capacity := by
      rw [hstl, Nat.mod_add_mod]
      congr 1
      omega
    rw [hstval]
    exact check_size_of_geom (Nat.mod_lt _ hcap2) (by omega)
  have hbp : block_pop
      (newContentLoop s.storage (List.replicate n (1 : ℚ)) 0 n).2.2 n
      = some { (newContentLoop s.storage (List.replicate n (1 : ℚ)) 0 n).2.2 with
          sum := (newContentLoop s.storage (List.replicate n (1 : ℚ)) 0 n).2.2.sum
            + (popLoop
                (newContentLoop s.storage (List.replicate n (1 : ℚ)) 0 n).2.2.capacity
                (newContentLoop s.storage (List.replicate n (1 : ℚ)) 0 n).2.2.weights
                (newContentLoop s.storage (List.replicate n (1 : ℚ)) 0 n).2.2.evicted
                (newContentLoop s.storage (List.replicate n (1 : ℚ)) 0 n).2.2.head n).1,
          head := (popLoop
                (newContentLoop s.storage (List.replicate n (1 : ℚ)) 0 n).2.2.capacity
                (newContentLoop s.storage (List.replicate n (1 : ℚ)) 0 n).2.2.weights
                (newContentLoop s.storage (List.replicate n (1 : ℚ)) 0 n).2.2.evicted
                (newContentLoop s.storage (List.replicate n (1 : ℚ)) 0 n).2.2.head n).2.2,
          evicted := (popLoop
                (newContentLoop s.storage (List.replicate n (1 : ℚ)) 0 n).2.2.capacity
                (newContentLoop s.storage (List.replicate n (1 : ℚ)) 0 n).2.2.weights
                (newContentLoop s.storage (List.replicate n (1 : ℚ)) 0 n).2.2.evicted
                (newContentLoop s.storage (List.replicate n (1 : ℚ)) 0 n).2.2.head n).2.1,
          safe_size := (newContentLoop s.storage (List.replicate n (1 : ℚ)) 0 n).2.2.safe_size - n,
          size := (newContentLoop s.storage (List.replicate n (1 : ℚ)) 0 n).2.2.size - n } := by
    unfold block_pop
    rw [if_pos hguard]
  have hes : (newContentLoop s.storage (List.replicate n (1 : ℚ)) 0 n).1
      = (List.range n).map (fun k =>
          s.storage.elements.getD
            ((s.storage.head + k) % s.storage.capacity) default) := by
    rw [hsp1]
    apply List.map_congr_left
    intro k hk
    norm_num
  have hws : (newContentLoop s.storage (List.replicate n (1 : ℚ)) 0 n).2.1
      = (List.range n).map (fun k =>
          s.storage.weights.getD
            ((s.storage.head + k) % s.storage.capacity) 0) := by
    apply list_eq_of_getD
    · rw [hsp2]
      simp
    · intro j hj
      have hjn : j < n := by
        rw [hsp2] at hj
        simpa using hj
      rw [hsp3 j, if_pos ⟨Nat.zero_le j, by omega, by simpa using hjn⟩,
        getD_range_map _ _ _ hjn]
  refine ⟨_, hbp, ?_, ?_, ?_, ?_⟩
  · unfold get_new_content
    rw [hne, if_neg (by omega)]
    dsimp only
    rw [hbp]
    dsimp only
    rw [hes, hws]
  · show (popLoop
        (newContentLoop s.storage (List.replicate n (1 : ℚ)) 0 n).2.2.capacity
        (newContentLoop s.storage (List.replicate n (1 : ℚ)) 0 n).2.2.weights
        (newContentLoop s.storage (List.replicate n (1 : ℚ)) 0 n).2.2.evicted
        (newContentLoop s.storage (List.replicate n (1 : ℚ)) 0 n).2.2.head n).2.2
      = (s.storage.head + n) % s.storage.capacity
    exact hph
  · show (newContentLoop s.storage (List.replicate n (1 : ℚ)) 0 n).2.2.size - n
      = s.storage.size - n
    rw [hsz]
  · show (newContentLoop s.storage (List.replicate n (1 : ℚ)) 0 n).2.2.safe_size - n
      = s.storage.safe_size - n
    rw [hss]

/-- The queue of the C2 counterexample: one committed slot with stored
    weight 2 in a store of physical capacity 5. -/
def c2Q : Queue ℕ :=
  ⟨5, 0, 1, 1, 1, 1, 2, [false, false, false, false, false],
   [9, 0, 0, 0, 0], [2, 0, 0, 0, 0]⟩

/-- C2 (counterexample): with one record added since the previous call and
    its stored weight being 2, `get_new_content` returns the weight vector
    `[2]` — the stored weight — and not the unit vector `[1]` the claim
    promises. -/
theorem c2_counterexample :
    (get_new_content (⟨1, 1, 4, c2Q, 1, [], 0⟩ : Replay ℕ)).map
        (fun out => out.1.2.2) = some [(2 : ℚ)] ∧
    some [(2 : ℚ)] ≠ some (List.replicate 1 (1 : ℚ)) := by
  constructor
  · norm_num [get_new_content, newContentLoop, get_element_and_mark,
      get_weight, block_pop, popLoop, check_size, c2Q]
  · simp

theorem c2_get_new_content_witness :
    ∃ q2 : Queue ℕ,
      block_pop (newContentLoop fullQ (List.replicate 1 (1 : ℚ)) 0 1).2.2 1
        = some q2 ∧
      get_new_content (⟨1, 1, 4, fullQ, 1, [], 0⟩ : Replay ℕ) = some
        ((1,
          (List.range 1).map (fun k =>
            fullQ.elements.getD ((fullQ.head + k) % fullQ.capacity) default),
          (List.range 1).map (fun k =>
            fullQ.weights.getD ((fullQ.head + k) % fullQ.capacity) 0)),
         { (⟨1, 1, 4, fullQ, 1, [], 0⟩ : Replay ℕ) with
             storage := q2, last_query := 0 + 1 }) ∧
      q2.head = (fullQ.head + 1) % fullQ.capacity ∧
      q2.size = fullQ.size - 1 ∧
      q2.safe_size = fullQ.safe_size - 1 :=
  c2_get_new_content 1 (by decide) ⟨1, 1, 4, fullQ, 1, [], 0⟩ fullQ_reach
    1 (by decide) (by decide) (by decide)

/-- C5: `ConcurrentQueue::update` on pairwise-distinct in-range ids:
    every id whose evicted flag is set is skipped entirely (its stored
    weight is unchanged), every non-evicted id's weight is replaced by the
    fresh value, and `sum_` changes by exactly the total of `new − old`
    over the non-evicted ids; when every id is evicted the queue is left
    completely unchanged — and `update` is a total function, so no abort
    happens in any of these cases. -/
theorem c5_update {α : Type} (q : Queue α) (ids : List ℕ) (ws : List ℚ)
    (hnd : ids.Nodup) (hlen : ids.length = ws.length)
    (hrange : ∀ id ∈ ids, id < q.weights.length) :
    (∀ p ∈ ids.zip ws, q.evicted.getD p.1 false = true →
       (update q ids ws).weights.getD p.1 0 = q.weights.getD p.1 0) ∧
    (∀ p ∈ ids.zip ws, q.evicted.getD p.1 false = false →
       (update q ids ws).weights.getD p.1 0 = p.2) ∧
    (update q ids ws).sum = q.sum +
      (((ids.zip ws).filter (fun p => !q.evicted.getD p.1 false)).map
        (fun p => p.2 - q.weights.getD p.1 0)).sum ∧
    ((∀ id ∈ ids, q.evicted.getD id false = true) → update q ids ws = q) := by
  have hfst : (ids.zip ws).map Prod.fst = ids :=
    List.map_fst_zip ids ws (le_of_eq hlen)
  have hnd2 : ((ids.zip ws).map Prod.fst).Nodup := by
    rw [hfst]
    exact hnd
  obtain ⟨h1, h2, h3, h4, h5⟩ :=
    updateLoop_spec q.evicted (ids.zip ws) q.weights hnd2
  refine ⟨?_, ?_, ?_, ?_⟩
  · intro p hp hpe
    exact h1 p hp hpe
  · intro p hp hpe
    obtain ⟨a, b⟩ := p
    exact h2 (a, b) hp hpe (hrange a (List.of_mem_zip hp).1)
  · show q.sum + (updateLoop q.evicted q.weights (ids.zip ws)).2 = _
    rw [h4]
  · intro hall
    have h5' := h5 (fun p hp => hall p.1 (by
      obtain ⟨a, b⟩ := p
      exact (List.of_mem_zip hp).1))
    show { q with
      weights := (updateLoop q.evicted q.weights (ids.zip ws)).1,
      sum := q.sum + (updateLoop q.evicted q.weights (ids.zip ws)).2 } = q
    rw [h5']
    simp

/-- A concrete store for the `update` witness: two committed slots, the
    first already evicted. -/
def uQ : Queue ℕ :=
  ⟨2, 0, 0, 2, 0, 2, 7, [true, false], [100, 101], [3, 4]⟩

theorem c5_update_witness :
    (∀ p ∈ ([0, 1].zip [(5 : ℚ), 6]), uQ.evicted.getD p.1 false = true →
       (update uQ [0, 1] [5, 6]).weights.getD p.1 0
         = uQ.weights.getD p.1 0) ∧
    (∀ p ∈ ([0, 1].zip [(5 : ℚ), 6]), uQ.evicted.getD p.1 false = false →
       (update uQ [0, 1] [5, 6]).weights.getD p.1 0 = p.2) ∧
    (update uQ [0, 1] [5, 6]).sum = uQ.sum +
      ((([0, 1].zip [(5 : ℚ), 6]).filter
          (fun p => !uQ.evicted.getD p.1 false)).map
        (fun p => p.2 - uQ.weights.getD p.1 0)).sum ∧
    ((∀ id ∈ [0, 1], uQ.evicted.getD id false = true) →
       update uQ [0, 1] [5, 6] = uQ) :=
  c5_update uQ [0, 1] [5, 6] (by decide) (by decide)
    (by decide)

/-- C8 (counterexample): the `PrioritizedReplay` constructor sizes the
    store as `int(1.25 * capacity)`, which truncates; at nominal capacity
    10 this yields 12, whereas the claim's ceiling `⌈1.25 · 10⌉ = 13`.
    (The spec's own boundary scenario 4 also speaks of physical size 12.) -/
theorem c8_counterexample :
    (mkReplay ℕ 10 1 1).storage.capacity = 12 ∧
    (⌈(125 : ℚ) / 100 * (10 : ℚ)⌉₊ : ℕ) = 13 ∧
    (mkReplay ℕ 10 1 1).storage.capacity ≠ ⌈(125 : ℚ) / 100 * (10 : ℚ)⌉₊ := by
  have hc : (⌈(125 : ℚ) / 100 * (10 : ℚ)⌉₊ : ℕ) = 13 := by
    rw [Nat.ceil_eq_iff (by norm_num)]
    norm_num
  refine ⟨rfl, hc, ?_⟩
  rw [hc]
  decide

/-- C8 (amended): for every nominal capacity `c > 0`, the underlying ring
    store is constructed with physical capacity `⌊1.25 × c⌋` — the floor
    (C++ `int` truncation of the exact double product), not the ceiling. -/
theorem c8_storage_capacity (c : ℕ) (_hc : 0 < c) :
    (mkReplay ℕ c 1 1).storage.capacity = ⌊(125 : ℚ) / 100 * (c : ℚ)⌋₊ := by
  have h2 : (125 : ℚ) / 100 * (c : ℚ) = ((5 * c : ℕ) : ℚ) / ((4 : ℕ) : ℚ) := by
    push_cast
    ring
  rw [h2, Nat.floor_div_nat, Nat.floor_natCast]
  rfl

theorem c8_storage_capacity_witness :
    (0 : ℕ) < 10 ∧
    (mkReplay ℕ 10 1 1).storage.capacity = ⌊(125 : ℚ) / 100 * (10 : ℚ)⌋₊ :=
  ⟨by norm_num, c8_storage_capacity 10 (by norm_num)⟩

/-- C3 (amended): on every reachable store configuration,
    `0 ≤ safe_size ≤ size ≤ capacity` (non-negativity is inherent in the ℕ
    model), and the head–tail arithmetic holds in the form the code's own
    `check_size` assertion uses: `size = 0` gives `tail = head`;
    `0 < size < capacity` gives `(tail − head) mod capacity = size`; and the
    full buffer `size = capacity` gives `tail = head` (where the claim's
    plain `(tail − head) mod capacity = size` fails).  The same three-way
    relation holds between `safe_tail`, `head` and `safe_size`. -/
theorem c3_ring_invariants {α : Type} [Inhabited α] (cap : ℕ)
    (hcap : 0 < cap) (q : Queue α) (ps : List (Pending α))
    (hreach : QReach cap (q, ps)) :
    q.safe_size ≤ q.size ∧ q.size ≤ q.capacity ∧
    (q.size = 0 → q.tail = q.head) ∧
    (0 < q.size → q.size < q.capacity →
      (q.tail + q.capacity - q.head) % q.capacity = q.size) ∧
    (q.size = q.capacity → q.tail = q.head) ∧
    (q.safe_size = 0 → q.safe_tail = q.head) ∧
    (0 < q.safe_size → q.safe_size < q.capacity →
      (q.safe_tail + q.capacity - q.head) % q.capacity = q.safe_size) ∧
    (q.safe_size = q.capacity → q.safe_tail = q.head) := by
  have hinv := qreach_inv hcap hreach
  obtain ⟨hc, hh, hs, ht, htl, hstl, hch, hl1, hl2, hl3⟩ := hinv
  dsimp only at hc hh hs ht htl hstl
  refine ⟨by omega, hs, ?_, ?_, ?_, ?_, ?_, ?_⟩
  · intro h0
    rw [htl, h0, Nat.add_zero, Nat.mod_eq_of_lt hh]
  · intro h1 h2
    rw [htl]
    exact offset_mod hh h1 h2
  · intro hfull
    rw [htl, hfull, Nat.add_mod_right, Nat.mod_eq_of_lt hh]
  · intro h0
    rw [hstl, h0, Nat.add_zero, Nat.mod_eq_of_lt hh]
  · intro h1 h2
    rw [hstl]
    exact offset_mod hh h1 h2
  · intro hfull
    rw [hstl, hfull, Nat.add_mod_right, Nat.mod_eq_of_lt hh]

/-- C3 (counterexample): the full buffer `size = capacity` is reachable
    (physical capacity 1, one committed element), and there
    `(tail − head) mod capacity = 0 ≠ size`, refuting the claim's
    "otherwise `(tail − head) mod capacity = size`". -/
theorem c3_counterexample :
    QReach 1 (fullQ, ([] : List (Pending ℕ))) ∧ fullQ.size ≠ 0 ∧
    (fullQ.tail + fullQ.capacity - fullQ.head) % fullQ.capacity
      ≠ fullQ.size :=
  ⟨fullQ_reach, by decide, by decide⟩

theorem c3_ring_invariants_witness :
    fullQ.safe_size ≤ fullQ.size ∧ fullQ.size ≤ fullQ.capacity ∧
    (fullQ.size = 0 → fullQ.tail = fullQ.head) ∧
    (0 < fullQ.size → fullQ.size < fullQ.capacity →
      (fullQ.tail + fullQ.capacity - fullQ.head) % fullQ.capacity
        = fullQ.size) ∧
    (fullQ.size = fullQ.capacity → fullQ.tail = fullQ.head) ∧
    (fullQ.safe_size = 0 → fullQ.safe_tail = fullQ.head) ∧
    (0 < fullQ.safe_size → fullQ.safe_size < fullQ.capacity →
      (fullQ.safe_tail + fullQ.capacity - fullQ.head) % fullQ.capacity
        = fullQ.safe_size) ∧
    (fullQ.safe_size = fullQ.capacity → fullQ.safe_tail = fullQ.head) :=
  c3_ring_invariants 1 (by decide) fullQ [] fullQ_reach

/-- C9: `PrioritizedReplay::size()` returns `storage_.safe_size(nullptr)`,
    the committed `safe_size_` of the store — and on every reachable store
    configuration the committed size is bounded by the reserved size
    (`ConcurrentQueue::size`), so the result never counts
    reserved-but-uncommitted slots. -/
theorem c9_replay_size {α : Type} [Inhabited α] (cap : ℕ) (hcap : 0 < cap)
    (s : Replay α) (ps : List (Pending α))
    (hreach : QReach cap (s.storage, ps)) :
    replaySize s = s.storage.safe_size ∧ replaySize s ≤ s.storage.size := by
  have hinv := qreach_inv hcap hreach
  obtain ⟨_, _, _, ht, _, _, _, _, _, _⟩ := hinv
  dsimp only at ht
  exact ⟨rfl, by rw [replaySize, safe_size]; omega⟩

theorem c9_replay_size_witness :
    replaySize (⟨1, 1, 2, reservedQ, 1, [], 0⟩ : Replay ℕ)
      = reservedQ.safe_size ∧
    replaySize (⟨1, 1, 2, reservedQ, 1, [], 0⟩ : Replay ℕ)
      ≤ reservedQ.size :=
  c9_replay_size 2 (by decide) ⟨1, 1, 2, reservedQ, 1, [], 0⟩
    [⟨0, [7], [1]⟩] reservedQ_reach

/-- C6: the sample/update handshake.  (1) Calling `sample` while
    `sampled_ids_` is non-empty aborts.  (2) A successful `sample` stores
    the ids of the freshly drawn batch in `sampled_ids_` (the SAMPLED
    state).  (3) `update_priority` aborts when the (rank-1) priority vector
    length differs from `|sampled_ids_|`.  (4) On a length match it raises
    the priorities to `alpha_` and forwards them to `ConcurrentQueue::update`
    for exactly the pending ids and clears `sampled_ids_`.
    (5) `keep_priority` clears `sampled_ids_` and leaves the store alone. -/
theorem c6_handshake {α : Type} [Inhabited α] (fpow : ℚ → ℚ → ℚ)
    (s : Replay α) (b : ℕ) (us : List ℚ) (pr : List ℚ) :
    (s.sampled_ids ≠ [] → sample fpow s b us = none) ∧
    (∀ es ws ids s2, s.sampled_ids = [] →
      samplePriv fpow s b us = some (es, ws, ids, s2) →
      sample fpow s b us = some ((es, ws), { s2 with sampled_ids := ids })) ∧
    (pr.length ≠ s.sampled_ids.length → update_priority fpow s pr = none) ∧
    (pr.length = s.sampled_ids.length →
      update_priority fpow s pr = some
        { s with
            storage := update s.storage s.sampled_ids
              (pr.map (fun p => fpow p s.alpha)),
            sampled_ids := [] }) ∧
    (keep_priority s = { s with sampled_ids := [] }) := by
  refine ⟨?_, ?_, ?_, ?_, rfl⟩
  · intro hne
    unfold sample
    rw [if_pos hne]
  · intro es ws ids s2 hids hsp
    unfold sample
    rw [if_neg (by simp [hids]), hsp]
  · intro hne
    unfold update_priority
    rw [if_neg hne]
  · intro heq
    unfold update_priority
    rw [if_pos heq]

theorem c6_handshake_witness :
    sample powConst (⟨1, 1, 4, wQ, 4, [0], 0⟩ : Replay ℕ) 1 [0] = none ∧
    update_priority powConst (⟨1, 1, 4, wQ, 4, [0], 0⟩ : Replay ℕ) []
      = none ∧
    update_priority powConst (⟨1, 1, 4, wQ, 4, [0], 0⟩ : Replay ℕ) [2]
      = some ⟨1, 1, 4, update wQ [0] [2], 4, [], 0⟩ ∧
    keep_priority (⟨1, 1, 4, wQ, 4, [0], 0⟩ : Replay ℕ)
      = ⟨1, 1, 4, wQ, 4, [], 0⟩ := by
  have h := c6_handshake powConst (⟨1, 1, 4, wQ, 4, [0], 0⟩ : Replay ℕ)
    1 [0] [2]
  have h2 := c6_handshake powConst (⟨1, 1, 4, wQ, 4, [0], 0⟩ : Replay ℕ)
    1 [0] ([] : List ℚ)
  exact ⟨h.1 (by simp), h2.2.2.1 (by simp), h.2.2.2.1 rfl, h.2.2.2.2⟩

/-- C7: when `samplePriv` returns, the overflow pop at the end of the scan
    (lines 364–368) behaves as claimed: if the reserved size read after the
    scan exceeds the nominal capacity, exactly `size − capacity_` slots are
    popped from the head and the reserved size becomes exactly the nominal
    capacity; otherwise the geometry is untouched.  Moreover sampling is the
    only operation of the priority path that pops: `add` keeps the head and
    only grows the size, `update_priority` and `keep_priority` leave head
    and size unchanged. -/
theorem c7_overflow_pop {α : Type} [Inhabited α] (fpow : ℚ → ℚ → ℚ)
    (cap : ℕ) (hcap : 0 < cap) (s : Replay α)
    (hreach : QReach cap (s.storage, []))
    (b : ℕ) (us : List ℚ) (es : List α) (wfin : List ℚ) (ids : List ℕ)
    (s' : Replay α) (pr : List ℚ) (es2 : List α)
    (h : samplePriv fpow s b us = some (es, wfin, ids, s')) :
    (s.capacity < s.storage.size →
       s'.storage.size = s.capacity ∧
       s'.storage.head = (s.storage.head + (s.storage.size - s.capacity))
           % s.storage.capacity) ∧
    (s.storage.size ≤ s.capacity →
       s'.storage.head = s.storage.head ∧
       s'.storage.size = s.storage.size) ∧
    (∀ s2, add fpow s es2 pr = some s2 →
       s2.storage.head = s.storage.head ∧
       s2.storage.size = s.storage.size + es2.length) ∧
    (∀ s2, update_priority fpow s pr = some s2 →
       s2.storage.head = s.storage.head ∧
       s2.storage.size = s.storage.size) ∧
    ((keep_priority s).storage = s.storage) := by
  obtain ⟨hub, ws, qf, stf, q2, hsl, hpop, hwf, hs'⟩ := samplePriv_unfold h
  have hentry0 : ScanEntry s.storage (⟨0, 0, 0, 0⟩ : ScanState) :=
    ⟨(prefixW_zero s.storage).symm, Or.inl rfl⟩
  obtain ⟨hrel, hes, hmark, hentryf⟩ :=
    scanLoop_sound us 0 s.storage _ es ws ids qf stf hentry0 hsl
  have hqfs : qf.size = s.storage.size := hmark.2.2.2.1
  have hqfh : qf.head = s.storage.head := hmark.2.1
  have hqfc : qf.capacity = s.storage.capacity := hmark.1
  have hinv := qreach_inv hcap hreach
  obtain ⟨hc, hh, hs, ht, _, _, _, _, _, _⟩ := hinv
  dsimp only at hc hh hs ht
  subst hs'
  refine ⟨?_, ?_, ?_, ?_, rfl⟩
  · intro hover
    rw [if_pos (by rw [hqfs]; exact hover)] at hpop
    unfold block_pop at hpop
    dsimp only at hpop
    split_ifs at hpop with hg
    simp only [Option.some.injEq] at hpop
    subst hpop
    refine ⟨?_, ?_⟩
    · show qf.size - (qf.size - s.capacity) = s.capacity
      rw [hqfs]
      omega
    · show (popLoop qf.capacity qf.weights qf.evicted qf.head
          (qf.size - s.capacity)).2.2 = _
      rw [popLoop_head_eq qf.weights (by rw [hqfc]; exact hc) _ _ _
        (by rw [hqfh, hqfc]; exact hh), hqfh, hqfc, hqfs]
  · intro hunder
    rw [if_neg (by rw [hqfs]; omega)] at hpop
    simp only [Option.some.injEq] at hpop
    subst hpop
    exact ⟨hqfh, hqfs⟩
  · intro s2 hadd
    unfold add at hadd
    split_ifs at hadd with hl
    rcases hba : block_append s.storage es2 (pr.map fun p => fpow p s.alpha)
      with _ | qa
    · rw [hba] at hadd
      exact absurd hadd (by simp)
    · rw [hba] at hadd
      dsimp only at hadd
      simp only [Option.some.injEq] at hadd
      subst hadd
      unfold block_append at hba
      split_ifs at hba with hg2
      simp only [Option.some.injEq] at hba
      subst hba
      exact ⟨rfl, rfl⟩
  · intro s2 hup
    unfold update_priority at hup
    split_ifs at hup with hl
    simp only [Option.some.injEq] at hup
    subst hup
    exact ⟨rfl, rfl⟩

/-- The store for the overflow-pop witness: five committed unit-weight
    slots filling physical capacity 5 (nominal capacity will be 4). -/
def bigQ : Queue ℕ :=
  ⟨5, 0, 0, 5, 0, 5, 5, [false, false, false, false, false],
   [11, 12, 13, 14, 15], [1, 1, 1, 1, 1]⟩

theorem bigQ_reach : QReach 5 (bigQ, ([] : List (Pending ℕ))) := by
  have h1 : QStep (initQueue ℕ 5, [])
      (reserveQ (initQueue ℕ 5) 5,
       [⟨0, [11, 12, 13, 14, 15], [1, 1, 1, 1, 1]⟩]) :=
    QStep.reserve (initQueue ℕ 5) [] [11, 12, 13, 14, 15] [1, 1, 1, 1, 1]
      (by decide) rfl
  have heq : commitQ (reserveQ (initQueue ℕ 5) 5) 0 [11, 12, 13, 14, 15]
      [1, 1, 1, 1, 1] = bigQ := by
    norm_num [commitQ, reserveQ, initQueue, writeBlock, bigQ,
      List.replicate, List.set]
  have h2 : QStep (reserveQ (initQueue ℕ 5) 5,
      [⟨0, [11, 12, 13, 14, 15], [1, 1, 1, 1, 1]⟩]) (bigQ, []) := by
    rw [← heq]
    exact QStep.commit (reserveQ (initQueue ℕ 5) 5)
      ⟨0, [11, 12, 13, 14, 15], [1, 1, 1, 1, 1]⟩ [] rfl
  exact Relation.ReflTransGen.tail (Relation.ReflTransGen.single h1) h2

/-- The store after the witness sample popped one slot down to the nominal
    capacity. -/
def poppedQ : Queue ℕ :=
  ⟨5, 1, 0, 4, 0, 4, 4, [true, false, false, false, false],
   [11, 12, 13, 14, 15], [1, 1, 1, 1, 1]⟩

theorem c7_overflow_pop_witness :
    ((4 : ℕ) < bigQ.size →
       poppedQ.size = 4 ∧
       poppedQ.head = (bigQ.head + (bigQ.size - 4)) % bigQ.capacity) ∧
    (bigQ.size ≤ 4 →
       poppedQ.head = bigQ.head ∧ poppedQ.size = bigQ.size) ∧
    (∀ s2, add powConst ⟨1, 1, 4, bigQ, 5, [], 0⟩ [] [] = some s2 →
       s2.storage.head = bigQ.head ∧
       s2.storage.size = bigQ.size + List.length ([] : List ℕ)) ∧
    (∀ s2, update_priority powConst ⟨1, 1, 4, bigQ, 5, [], 0⟩ []
        = some s2 →
       s2.storage.head = bigQ.head ∧ s2.storage.size = bigQ.size) ∧
    ((keep_priority (⟨1, 1, 4, bigQ, 5, [], 0⟩ : Replay ℕ)).storage
      = bigQ) :=
  c7_overflow_pop powConst 5 (by decide) ⟨1, 1, 4, bigQ, 5, [], 0⟩
    bigQ_reach 1 [0] [11] [1] [0] ⟨1, 1, 4, poppedQ, 5, [], 0⟩ [] []
    (by norm_num [samplePriv, safe_size, scanLoop, scanOne, scanGo,
      get_weight, get_element_and_mark, listMax, isWeights, block_pop,
      popLoop, check_size, powConst, bigQ, poppedQ])

theorem scanRel_last_le {α : Type} (q : Queue α) (size : ℕ) :
    ∀ (rs : List ℚ) (st : ScanState) (ws : List ℚ) (ids : List ℕ)
      (st' : ScanState),
      ScanRel q size rs st ws ids st' → st.nextIdx ≤ size →
      st'.nextIdx ≤ size := by
  intro rs
  induction rs with
  | nil =>
      intro st ws ids st' h hst
      rw [h.2.2]
      exact hst
  | cons r rs ih =>
      intro st ws ids st' h hst
      obtain ⟨mid, hsel, ws', ids', _, _, hrest⟩ := h
      exact ih mid ws' ids' st' hrest hsel.2.2.1

/-- Reachability of the witness store `wQ` (four unit-weight appends). -/
theorem wQ_reach : QReach 5 (wQ, ([] : List (Pending ℕ))) := by
  have h1 : QStep (initQueue ℕ 5, [])
      (reserveQ (initQueue ℕ 5) 4,
       [⟨0, [10, 11, 12, 13], [1, 1, 1, 1]⟩]) :=
    QStep.reserve (initQueue ℕ 5) [] [10, 11, 12, 13] [1, 1, 1, 1]
      (by decide) rfl
  have heq : commitQ (reserveQ (initQueue ℕ 5) 4) 0 [10, 11, 12, 13]
      [1, 1, 1, 1] = wQ := by
    norm_num [commitQ, reserveQ, initQueue, writeBlock, wQ,
      List.replicate, List.set]
  have h2 : QStep (reserveQ (initQueue ℕ 5) 4,
      [⟨0, [10, 11, 12, 13], [1, 1, 1, 1]⟩]) (wQ, []) := by
    rw [← heq]
    exact QStep.commit (reserveQ (initQueue ℕ 5) 4)
      ⟨0, [10, 11, 12, 13], [1, 1, 1, 1]⟩ [] rfl
  exact Relation.ReflTransGen.tail (Relation.ReflTransGen.single h1) h2

/-- C4: the stratified scan of `sample_`.  When `samplePriv` returns,
    (a) the random value consumed by the `i`-th draw is
    `uᵢ + i·(sum/batchsize)` clamped above by `sum − 0.2`, and
    (b) the draws and the returned physical ids satisfy the first-crossing
    spec `ScanRel` from cursor `0`: each draw selects the slot at which the
    running prefix sum of weights first satisfies `acc_sum ≥ randᵢ` with
    `acc_sum > 0` (`SelectOne`), every per-draw step has a non-decreasing
    cursor (`SelectOne` contains `st.nextIdx ≤ st'.nextIdx`), and the final
    cursor never exceeds the snapshot `safe_size`, which bounds the whole
    scan by O(safe_size). -/
theorem c4_stratified_scan {α : Type} [Inhabited α] (fpow : ℚ → ℚ → ℚ)
    (s : Replay α) (b : ℕ) (us : List ℚ) (es : List α) (wfin : List ℚ)
    (ids : List ℕ) (s' : Replay α)
    (h : samplePriv fpow s b us = some (es, wfin, ids, s')) :
    ∃ ws stf,
      (randList s.storage.sum (s.storage.sum / (b : ℚ)) us 0).length = b ∧
      (∀ k, k < b →
        (randList s.storage.sum (s.storage.sum / (b : ℚ)) us 0).getD k 0
          = min (s.storage.sum - 1/5)
              (us.getD k 0 + (k : ℚ) * (s.storage.sum / (b : ℚ)))) ∧
      ScanRel s.storage s.storage.safe_size
        (randList s.storage.sum (s.storage.sum / (b : ℚ)) us 0)
        ⟨0, 0, 0, 0⟩ ws ids stf ∧
      stf.nextIdx ≤ s.storage.safe_size := by
  obtain ⟨hub, ws, qf, stf, q2, hsl, hpop, hwf, hs'⟩ := samplePriv_unfold h
  have hentry0 : ScanEntry s.storage (⟨0, 0, 0, 0⟩ : ScanState) :=
    ⟨(prefixW_zero s.storage).symm, Or.inl rfl⟩
  obtain ⟨hrel, hes, hmark, hentryf⟩ :=
    scanLoop_sound us 0 s.storage _ es ws ids qf stf hentry0 hsl
  refine ⟨ws, stf, ?_, ?_, hrel, ?_⟩
  · rw [randList_length, hub]
  · intro k hk
    have hk2 : k < us.length := by omega
    have := randList_getD s.storage.sum (s.storage.sum / (b : ℚ)) us 0 k hk2
    simpa using this
  · exact scanRel_last_le s.storage s.storage.safe_size _ _ ws ids stf hrel
      (Nat.zero_le _)

theorem c4_stratified_scan_witness :
    ∃ ws stf,
      (randList wRep.storage.sum (wRep.storage.sum / ((2 : ℕ) : ℚ))
        [1/2, 1/2] 0).length = 2 ∧
      (∀ k, k < 2 →
        (randList wRep.storage.sum (wRep.storage.sum / ((2 : ℕ) : ℚ))
          [1/2, 1/2] 0).getD k 0
          = min (wRep.storage.sum - 1/5)
              (([(1 : ℚ)/2, 1/2]).getD k 0
                + (k : ℚ) * (wRep.storage.sum / ((2 : ℕ) : ℚ)))) ∧
      ScanRel wRep.storage wRep.storage.safe_size
        (randList wRep.storage.sum (wRep.storage.sum / ((2 : ℕ) : ℚ))
          [1/2, 1/2] 0)
        ⟨0, 0, 0, 0⟩ ws [0, 2] stf ∧
      stf.nextIdx ≤ wRep.storage.safe_size :=
  c4_stratified_scan powConst wRep 2 [1/2, 1/2] [10, 12] [1, 1] [0, 2] wRep
    (by norm_num [samplePriv, safe_size, scanLoop, scanOne, scanGo,
      get_weight, get_element_and_mark, listMax, isWeights, powConst,
      wRep, wQ])

/-- C1: the importance-sampling weights of a returned sample are computed
    from the snapshot taken at scan start: there is a list `ws` of the
    selected slots' stored weights (`ws` is related pairwise to the
    returned physical ids) such that the returned weight vector is exactly
    the pipeline `w ← w / sum`, `w ← (safe_size · w) ^ (−β)` (power through
    the external `fpow`), normalized by its maximum — with `(safe_size,
    sum)` the `storage_.safe_size(&sum)` snapshot read at the start of the
    scan.  (The code multiplies by the reserved size re-read after the
    scan, line 365; on a quiescent reachable store that value equals the
    snapshot `safe_size`, which the proof establishes via the reachability
    invariant.) -/
theorem c1_importance_weights {α : Type} [Inhabited α] (fpow : ℚ → ℚ → ℚ)
    (cap : ℕ) (hcap : 0 < cap) (s : Replay α)
    (hreach : QReach cap (s.storage, []))
    (b : ℕ) (us : List ℚ) (es : List α) (wfin : List ℚ) (ids : List ℕ)
    (s' : Replay α)
    (h : samplePriv fpow s b us = some (es, wfin, ids, s')) :
    ∃ ws : List ℚ,
      List.Forall₂ (fun (w : ℚ) (id : ℕ) =>
        w = s.storage.weights.getD id 0) ws ids ∧
      wfin = isWeights fpow s.beta (safe_size s.storage).1
        (safe_size s.storage).2 ws := by
  obtain ⟨hub, ws, qf, stf, q2, hsl, hpop, hwf, hs'⟩ := samplePriv_unfold h
  have hentry0 : ScanEntry s.storage (⟨0, 0, 0, 0⟩ : ScanState) :=
    ⟨(prefixW_zero s.storage).symm, Or.inl rfl⟩
  obtain ⟨hrel, hes, hmark, hentryf⟩ :=
    scanLoop_sound us 0 s.storage _ es ws ids qf stf hentry0 hsl
  refine ⟨ws, scanRel_weights s.storage s.storage.safe_size _ _ ws ids stf
    hrel, ?_⟩
  rw [hwf]
  have hinv := qreach_inv hcap hreach
  obtain ⟨_, _, _, ht, _, _, _, _, _, _⟩ := hinv
  dsimp only at ht
  simp only [pendingTotal, List.map_nil, List.sum_nil, Nat.add_zero] at ht
  have hsz : qf.size = (safe_size s.storage).1 := by
    rw [hmark.2.2.2.1]
    show s.storage.size = s.storage.safe_size
    omega
  rw [hsz]
  rfl

theorem c1_importance_weights_witness :
    ∃ ws : List ℚ,
      List.Forall₂ (fun (w : ℚ) (id : ℕ) =>
        w = wRep.storage.weights.getD id 0) ws [0, 2] ∧
      [(1 : ℚ), 1] = isWeights powConst wRep.beta (safe_size wRep.storage).1
        (safe_size wRep.storage).2 ws :=
  c1_importance_weights powConst 5 (by decide) wRep wQ_reach 2 [1/2, 1/2]
    [10, 12] [1, 1] [0, 2] wRep
    (by norm_num [samplePriv, safe_size, scanLoop, scanOne, scanGo,
      get_weight, get_element_and_mark, listMax, isWeights, powConst,
      wRep, wQ])

/-- When the crossing condition already holds at loop entry (and at least
    one weight has been consumed), the inner loop selects immediately and
    returns the carried scan state unchanged. -/
theorem scanOne_immediate {α : Type} [Inhabited α] (q : Queue α) (size : ℕ)
    (rand : ℚ) (st : ScanState) (hle : st.nextIdx ≤ size)
    (h1 : 1 ≤ st.nextIdx) (hacc : 0 < st.accSum)
    (hrand : rand ≤ st.accSum) :
    scanOne q size rand st
      = some ((get_element_and_mark q (st.nextIdx - 1)).1,
              (get_element_and_mark q (st.nextIdx - 1)).2, st) := by
  unfold scanOne
  have hfuel : size + 1 - st.nextIdx = (size - st.nextIdx) + 1 := by omega
  rw [hfuel]
  simp only [scanGo]
  rw [if_pos hle, if_pos (⟨hacc, hrand⟩ : 0 < st.accSum ∧ rand ≤ st.accSum),
    if_pos h1]

/-- When all remaining clamped randoms are dominated by the accumulated
    sum (the tiny-sum regime), every remaining draw selects the same slot
    and the scan state never moves. -/
theorem scanLoop_const {α : Type} [Inhabited α] (size : ℕ) (sum segment : ℚ)
    (hsmall : sum - 1/5 ≤ 0) :
    ∀ (us : List ℚ) (i : ℕ) (q : Queue α) (st : ScanState),
      st.nextIdx ≤ size → 1 ≤ st.nextIdx → 0 < st.accSum →
      ∃ qf, scanLoop size sum segment q us i st
        = some
          (List.replicate us.length
            (q.elements.getD ((q.head + (st.nextIdx - 1)) % q.capacity)
              default),
           List.replicate us.length st.w,
           List.replicate us.length st.id, qf, st) ∧
        MarkOnly q qf := by
  intro us
  induction us with
  | nil =>
      intro i q st hle h1 hacc
      exact ⟨q, by simp [scanLoop], markOnly_refl q⟩
  | cons u us ih =>
      intro i q st hle h1 hacc
      have hrand : min (sum - 1/5) (u + (i : ℚ) * segment) ≤ st.accSum :=
        le_trans (le_trans (min_le_left _ _) hsmall) (le_of_lt hacc)
      have hone := scanOne_immediate q size
        (min (sum - 1/5) (u + (i : ℚ) * segment)) st hle h1 hacc hrand
      obtain ⟨qf, hloop, hmark⟩ := ih (i + 1)
        (get_element_and_mark q (st.nextIdx - 1)).2 st hle h1 hacc
      refine ⟨qf, ?_, markOnly_trans (markOnly_set q _ false) hmark⟩
      simp only [scanLoop]
      rw [hone]
      dsimp only
      rw [hloop]
      dsimp only
      simp only [List.length_cons, List.replicate_succ]
      rfl

/-- C10: the tiny-sum degeneracy.  Over a snapshot with `0 < sum ≤ 0.2`
    (so every clamped draw `min (sum − 0.2) …` is ≤ 0), a successful
    sample selects `batchsize` copies of one single slot: the first slot at
    which the prefix sum of weights becomes positive.  The returned batch
    is `batchsize` copies of that slot's element and the returned id list
    (which `sample` stashes into `sampled_ids_`) holds the same physical
    index `batchsize` times. -/
theorem c10_small_sum {α : Type} [Inhabited α] (fpow : ℚ → ℚ → ℚ)
    (s : Replay α) (b : ℕ) (us : List ℚ)
    (hub : us.length = b) (hb : 0 < b)
    (hsum : 0 < s.storage.sum) (hsmall : s.storage.sum ≤ 1/5)
    (hpre : prefixW s.storage s.storage.safe_size = s.storage.sum)
    (hsize : s.storage.size ≤ s.capacity) :
    ∃ m wfin s',
      1 ≤ m ∧ m ≤ s.storage.safe_size ∧ 0 < prefixW s.storage m ∧
      (∀ k, k < m → ¬ 0 < prefixW s.storage k) ∧
      samplePriv fpow s b us = some
        (List.replicate b (s.storage.elements.getD
           ((s.storage.head + (m - 1)) % s.storage.capacity) default),
         wfin,
         List.replicate b ((s.storage.head + (m - 1)) % s.storage.capacity),
         s') := by
  cases us with
  | nil =>
      simp at hub
      omega
  | cons u0 us' =>
      have hentry0 : ScanEntry s.storage (⟨0, 0, 0, 0⟩ : ScanState) :=
        ⟨(prefixW_zero s.storage).symm, Or.inl rfl⟩
      have hrand0 : min (s.storage.sum - 1/5)
          (u0 + ((0 : ℕ) : ℚ) * (s.storage.sum / (b : ℚ))) ≤ 0 :=
        le_trans (min_le_left _ _) (by linarith)
      have hex : ∃ m', (0 : ℕ) ≤ m' ∧ m' ≤ s.storage.safe_size ∧
          0 < prefixW s.storage m' ∧
          min (s.storage.sum - 1/5)
            (u0 + ((0 : ℕ) : ℚ) * (s.storage.sum / (b : ℚ)))
            ≤ prefixW s.storage m' := by
        refine ⟨s.storage.safe_size, Nat.zero_le _, le_refl _, ?_, ?_⟩
        · rw [hpre]
          exact hsum
        · rw [hpre]
          linarith
      obtain ⟨out, hone⟩ := scanOne_some s.storage s.storage.safe_size
        (min (s.storage.sum - 1/5)
          (u0 + ((0 : ℕ) : ℚ) * (s.storage.sum / (b : ℚ))))
        ⟨0, 0, 0, 0⟩ hentry0 (Nat.zero_le _)
        (by
          obtain ⟨m', h0, h1, h2, h3⟩ := hex
          exact ⟨m', h0, h1, h2, h3⟩)
      obtain ⟨e, q', st1⟩ := out
      obtain ⟨hsel, he, hq'⟩ := scanOne_sound s.storage s.storage.safe_size
        _ ⟨0, 0, 0, 0⟩ e q' st1 hentry0 hone
      obtain ⟨hmono, h1m, hmle, haccp, haccpos, hrle, hminim, hid, hw⟩ := hsel
      have hsmall2 : s.storage.sum - 1/5 ≤ 0 := by linarith
      obtain ⟨qf, hloopc, hmarkc⟩ := scanLoop_const s.storage.safe_size
        s.storage.sum (s.storage.sum / (b : ℚ)) hsmall2 us' 1 q' st1
        hmle h1m haccpos
      have hmark1 : MarkOnly s.storage q' := by
        rw [hq']
        exact markOnly_set s.storage st1.id false
      refine ⟨st1.nextIdx,
        isWeights fpow s.beta qf.size s.storage.sum
          (st1.w :: List.replicate us'.length st1.w),
        { s with storage := qf }, h1m, hmle,
        by rw [← haccp]; exact haccpos, ?_, ?_⟩
      · intro k hk hkpos
        exact hminim k (Nat.zero_le _) hk ⟨hkpos, le_trans hrand0
          (le_of_lt hkpos)⟩
      · unfold samplePriv
        rw [if_pos hub]
        rw [show safe_size s.storage = (s.storage.safe_size, s.storage.sum)
          from rfl]
        dsimp only
        have hloop : scanLoop s.storage.safe_size s.storage.sum
            (s.storage.sum / (b : ℚ)) s.storage (u0 :: us') 0 ⟨0, 0, 0, 0⟩
            = some
              (e :: List.replicate us'.length
                (q'.elements.getD ((q'.head + (st1.nextIdx - 1))
                  % q'.capacity) default),
               st1.w :: List.replicate us'.length st1.w,
               st1.id :: List.replicate us'.length st1.id, qf, st1) := by
          simp only [scanLoop]
          rw [hone]
          dsimp only
          rw [hloopc]
        rw [hloop]
        dsimp only
        have hqfsize : qf.size = s.storage.size := by
          rw [hmarkc.2.2.2.1, hmark1.2.2.2.1]
        rw [if_neg (by rw [hqfsize]; omega)]
        dsimp only
        have hb2 : b = us'.length + 1 := by
          simp at hub
          omega
        subst hb2
        simp only [List.replicate_succ]
        have he2 : q'.elements.getD ((q'.head + (st1.nextIdx - 1))
            % q'.capacity) default
            = s.storage.elements.getD ((s.storage.head + (st1.nextIdx - 1))
              % s.storage.capacity) default := by
          rw [hmark1.2.2.2.2.2.2.2.1, hmark1.2.1, hmark1.1]
        rw [he2, he, hid]

/-- A store whose committed weights sum to `1/5` (the tiny-sum regime). -/
def tinyQ : Queue ℕ :=
  ⟨5, 0, 2, 2, 2, 2, 1/5, [false, false, false, false, false],
   [7, 8, 0, 0, 0], [1/10, 1/10, 0, 0, 0]⟩

/-- A replay state around `tinyQ`. -/
def tinyRep : Replay ℕ :=
  ⟨1, 1, 4, tinyQ, 2, [], 0⟩

theorem c10_small_sum_witness :
    ∃ m wfin s',
      1 ≤ m ∧ m ≤ tinyRep.storage.safe_size ∧
      0 < prefixW tinyRep.storage m ∧
      (∀ k, k < m → ¬ 0 < prefixW tinyRep.storage k) ∧
      samplePriv powConst tinyRep 3 [0, 0, 0] = some
        (List.replicate 3 (tinyRep.storage.elements.getD
           ((tinyRep.storage.head + (m - 1)) % tinyRep.storage.capacity)
           default),
         wfin,
         List.replicate 3
           ((tinyRep.storage.head + (m - 1)) % tinyRep.storage.capacity),
         s') :=
  c10_small_sum powConst tinyRep 3 [0, 0, 0] (by decide) (by decide)
    (by norm_num [tinyRep, tinyQ]) (by norm_num [tinyRep, tinyQ])
    (by norm_num [tinyRep, tinyQ, prefixW, List.range, List.range.loop,
      get_weight])
    (by decide)

end PostmanBuffer
